import Mathlib

/-!
Verification of the canonical-form engine and Snort game of `cgt-tools`.

The Rust sources under verification are shallowly embedded below:

* `src/rw_hash_map.rs` — the thread-safe hash map (embedded as a sequential
  association-list state machine; the `RwLock` wrapper adds no sequential
  behaviour).
* `src/cgt/graph/directed.rs` — `DirectedGraph` with a flattened adjacency
  matrix.
* `src/src/short/partizan/games/snort.rs` — Snort positions, move
  generation, decomposition into connected components via BFS, and the
  memoized `canonical_form` driver.

The undirected graph type (`graph::undirected::Graph`) and the canonical-form
backend (`short_canonical_game`, `transposition_table`) are used by the Snort
module but their sources are not part of the reviewed tree; they are modelled
from the specification where needed, and each such definition is marked
`Modelled from the spec:` in its doc comment.

All recursive functions are written with explicit fuel (structural recursion
on a `Nat`), with fuel-irrelevance lemmas showing that any sufficiently large
fuel computes the same result; this keeps every definition executable by the
kernel.  Out-of-bounds indexing, which panics in Rust, is modelled by `getD`
with a default; every theorem below only exercises in-bounds accesses.
-/

/-! ## The thread-safe hash map (`src/rw_hash_map.rs`)

`RwHashMap` wraps `RwLock<HashMap<K, V>>`.  Sequentially it is a finite map;
we embed it as an association list without duplicate keys.  `insert` has the
`std::collections::HashMap::insert` semantics: it *replaces* the value if the
key is present.  `get` is `HashMap::get`, `len` the number of entries,
`clear` removes everything. -/

def RwHashMap (K V : Type) : Type := List (K × V)

def rwNew {K V : Type} : RwHashMap K V := []

/-- `RwHashMap::get`: look the key up. -/
def rwGet {K V : Type} [DecidableEq K] (m : RwHashMap K V) (key : K) : Option V :=
  match m with
  | [] => none
  | (k, v) :: rest => if k = key then some v else rwGet rest key

/-- `RwHashMap::insert`: `HashMap::insert` replaces the value stored for
`key` when present, and appends a new entry otherwise. -/
def rwInsert {K V : Type} [DecidableEq K] (m : RwHashMap K V) (key : K) (value : V) :
    RwHashMap K V :=
  match m with
  | [] => [(key, value)]
  | (k, v) :: rest => if k = key then (key, value) :: rest else (k, v) :: rwInsert rest key value

/-- `RwHashMap::len`. -/
def rwLen {K V : Type} (m : RwHashMap K V) : Nat := m.length

/-- `RwHashMap::clear`. -/
def rwClear {K V : Type} (_ : RwHashMap K V) : RwHashMap K V := []

/-- A client interaction with the map: the state-changing operations
(`get` and `len` do not change the state). -/
inductive MapOp (K V : Type) where
  | insert (key : K) (value : V)
  | clear

/-- Run a sequence of state-changing operations from the empty map. -/
def execOps {K V : Type} [DecidableEq K] (ops : List (MapOp K V)) : RwHashMap K V :=
  ops.foldl
    (fun m op =>
      match op with
      | .insert k v => rwInsert m k v
      | .clear => rwClear m)
    rwNew

/-- `key` has not been inserted since the last `clear` of the operation
sequence (scanning left to right: an insert for `key` spoils freshness, a
`clear` restores it). -/
def freshSinceClear {K V : Type} [DecidableEq K] (key : K) (ops : List (MapOp K V)) : Bool :=
  ops.foldl
    (fun fresh op =>
      match op with
      | .insert k _ => fresh && !(k = key : Bool)
      | .clear => true)
    true

/-! ## `DirectedGraph` (`src/cgt/graph/directed.rs`)

The adjacency matrix is a flattened `Vec<bool>` of length `size * size`;
`are_adjacent(out_vertex, in_vertex)` reads `matrix[size * in_vertex +
out_vertex]` and `connect` writes the same cell. -/

structure DirectedGraph where
  size : Nat
  adjacency_matrix : List Bool
deriving DecidableEq

namespace DirectedGraph

/-- `DirectedGraph::empty`. -/
def empty (size : Nat) : DirectedGraph :=
  { size := size, adjacency_matrix := List.replicate (size * size) false }

/-- `DirectedGraph::from_vec`: `None` when the vector has the wrong length. -/
def from_vec (size : Nat) (vec : List Bool) : Option DirectedGraph :=
  if vec.length ≠ size * size then none
  else some { size := size, adjacency_matrix := vec }

/-- `DirectedGraph::are_adjacent`. -/
def are_adjacent (g : DirectedGraph) (out_vertex in_vertex : Nat) : Bool :=
  g.adjacency_matrix.getD (g.size * in_vertex + out_vertex) false

/-- `DirectedGraph::connect`. -/
def connect (g : DirectedGraph) (out_vertex in_vertex : Nat) (c : Bool) : DirectedGraph :=
  { g with adjacency_matrix := g.adjacency_matrix.set (g.size * in_vertex + out_vertex) c }

end DirectedGraph

section DirectedGraphLemmas

/-- Injectivity of the matrix encoding for in-range vertex pairs. -/
theorem matrix_index_inj {n u v x y : Nat} (hu : u < n) (hx : x < n)
    (h : n * v + u = n * y + x) : u = x ∧ v = y := by
  rcases Nat.lt_trichotomy v y with hvy | hvy | hvy
  · have : n * v + u < n * y + x := by
      calc n * v + u < n * v + n := by omega
        _ = n * (v + 1) := by ring
        _ ≤ n * y := Nat.mul_le_mul_left n hvy
        _ ≤ n * y + x := by omega
    omega
  · subst hvy; omega
  · have : n * y + x < n * v + u := by
      calc n * y + x < n * y + n := by omega
        _ = n * (y + 1) := by ring
        _ ≤ n * v := Nat.mul_le_mul_left n hvy
        _ ≤ n * v + u := by omega
    omega

end DirectedGraphLemmas

/-! ## The undirected graph used by Snort

Modelled from the spec: the undirected graph type `graph::undirected::Graph`
is consumed by the Snort module (`empty`, `size`, `connect`, `are_adjacent`,
`adjacent_to`, `vertices`, `from_edges`) but its source is not part of the
reviewed tree.  We model it as an adjacency matrix over normalized cells: the
edge `{u, v}` is stored at cell `size * max u v + min u v`, which makes
`are_adjacent` symmetric for every graph value, exactly as an undirected
graph's `connect` (which writes both directions of a full matrix) would. -/

structure Graph where
  size : Nat
  adjacency_matrix : List Bool
deriving DecidableEq

namespace Graph

/-- The normalized matrix cell of the unordered pair `{u, v}`. -/
def cell (n u v : Nat) : Nat := n * max u v + min u v

/-- `Graph::empty`: no edges. -/
def empty (size : Nat) : Graph :=
  { size := size, adjacency_matrix := List.replicate (size * size) false }

/-- `Graph::are_adjacent`. -/
def are_adjacent (g : Graph) (u v : Nat) : Bool :=
  g.adjacency_matrix.getD (cell g.size u v) false

/-- `Graph::connect`: set or clear the edge `{u, v}`. -/
def connect (g : Graph) (u v : Nat) (c : Bool) : Graph :=
  { g with adjacency_matrix := g.adjacency_matrix.set (cell g.size u v) c }

/-- `Graph::vertices`: `0..size`. -/
def vertices (g : Graph) : List Nat := List.range g.size

/-- `Graph::adjacent_to`: the `AdjacentIter` scans vertex indices in
increasing order and yields those adjacent to `v`. -/
def adjacentTo (g : Graph) (v : Nat) : List Nat :=
  (List.range g.size).filter (fun u => g.are_adjacent v u)

/-- `Graph::from_edges`. -/
def from_edges (size : Nat) (edges : List (Nat × Nat)) : Graph :=
  edges.foldl (fun g e => g.connect e.1 e.2 true) (empty size)

end Graph

/-! ## Snort (`src/src/short/partizan/games/snort.rs`) -/

/-- `snort::VertexColor`. -/
inductive VertexColor where
  | Empty
  | TintLeft
  | TintRight
  | Taken
deriving DecidableEq

/-- `snort::Position`: vertex colors plus the game graph. -/
structure Position where
  vertices : List VertexColor
  graph : Graph
deriving DecidableEq

namespace Position

/-- `Position::new`: all vertices empty. -/
def new (graph : Graph) : Position :=
  { vertices := List.replicate graph.size VertexColor.Empty, graph := graph }

/-- `Position::with_colors`: `None` when `vertices` and `graph` have
conflicting sizes. -/
def with_colors (vertices : List VertexColor) (graph : Graph) : Option Position :=
  if vertices.length ≠ graph.size then none
  else some { vertices := vertices, graph := graph }

/-- One neighbour update of `Position::moves_for`: disconnect
`adjacent_vertex` from `move_vertex` and tint it — an opponent-tinted or
taken neighbour becomes `Taken` and is disconnected from every vertex. -/
def make_move_step (own : VertexColor) (move_vertex : Nat)
    (pos : Position) (adjacent_vertex : Nat) : Position :=
  let pos : Position := { pos with graph := pos.graph.connect move_vertex adjacent_vertex false }
  if adjacent_vertex ≠ move_vertex then
    let c := pos.vertices.getD adjacent_vertex VertexColor.Taken
    if c = own ∨ c = VertexColor.Empty then
      { pos with vertices := pos.vertices.set adjacent_vertex own }
    else
      { vertices := pos.vertices.set adjacent_vertex VertexColor.Taken,
        graph := pos.graph.vertices.foldl
          (fun g v => g.connect v adjacent_vertex false) pos.graph }
  else pos

/-- The body of the `move_vertices` loop of `Position::moves_for`: take
`move_vertex`, then walk its (original) neighbours with
`make_move_step`. -/
def make_move (p : Position) (own : VertexColor) (move_vertex : Nat) : Position :=
  (p.graph.adjacentTo move_vertex).foldl (make_move_step own move_vertex)
    { p with vertices := p.vertices.set move_vertex VertexColor.Taken }

/-- `Position::moves_for::<COLOR>`: one move per vertex colored `own` or
`Empty` (scanned in index order). -/
def moves_for (p : Position) (own : VertexColor) : List Position :=
  ((List.range p.vertices.length).filter
      (fun i => p.vertices.getD i VertexColor.Taken = own ∨
                p.vertices.getD i VertexColor.Taken = VertexColor.Empty)).map
    (p.make_move own)

/-- `PartizanShortGame::left_moves` for Snort. -/
def left_moves (p : Position) : List Position := p.moves_for VertexColor.TintLeft

/-- `PartizanShortGame::right_moves` for Snort. -/
def right_moves (p : Position) : List Position := p.moves_for VertexColor.TintRight

end Position

/-! ### The BFS of `Position::bfs`

The `while let` loop is embedded with explicit fuel; the inner `for` over the
neighbours of the dequeued vertex is the exact source fold: skip a visited
neighbour, otherwise mark it visited and enqueue it. -/

/-- One dequeue of `Position::bfs`'s worklist loop: visit the unvisited
neighbours of `v`. -/
def bfsVisitStep (s : List Bool × List Nat) (u : Nat) : List Bool × List Nat :=
  if s.1.getD u true then s else (s.1.set u true, s.2 ++ [u])

def bfsVisit (g : Graph) (v : Nat) (s : List Bool × List Nat) : List Bool × List Nat :=
  (g.adjacentTo v).foldl bfsVisitStep s

/-- The `while let Some(v) = q.pop_front()` loop of `Position::bfs`,
accumulating `vertices_to_take`. -/
def bfsLoop (g : Graph) : Nat → List Bool → List Nat → List Nat → List Nat × List Bool
  | 0, visited, _, acc => (acc, visited)
  | fuel + 1, visited, q, acc =>
    match q with
    | [] => (acc, visited)
    | v :: q' =>
      let s := bfsVisit g v (visited, q')
      bfsLoop g fuel s.1 s.2 (acc ++ [v])

/-- Number of `false` entries of the visited vector: the canonical bound on
the number of remaining BFS dequeues. -/
def countFalse (visited : List Bool) : Nat := visited.countP (fun b => b = false)

/-- Rebuild the component graph of `Position::bfs`: vertex `new_v` stands for
the old vertex `vertices_to_take[new_v]`, and old edges inside the component
are transported via `vertices_to_take.iter().position(..)`. -/
def bcgInner (vtt : List Nat) (new_v : Nat) (g : Graph) (old_u : Nat) : Graph :=
  match vtt.findIdx? (fun x => x = old_u) with
  | some new_u => g.connect new_v new_u true
  | none => g

def bcgOuter (p : Position) (vtt : List Nat) (g : Graph) (pair : Nat × Nat) : Graph :=
  (p.graph.adjacentTo pair.2).foldl (bcgInner vtt pair.1) g

def buildComponentGraph (p : Position) (vtt : List Nat) : Graph :=
  vtt.enum.foldl (bcgOuter p vtt) (Graph.empty vtt.length)

namespace Position

/-- `Position::bfs`: explore the component of `v`, then rebuild it as a
fresh position (returning also the updated visited vector, which the source
mutates in place). -/
def bfs (p : Position) (visited : List Bool) (v : Nat) : Position × List Bool :=
  let visited0 := visited.set v true
  let r := bfsLoop p.graph (countFalse visited0 + 2) visited0 [v] []
  let vtt := r.1
  ({ vertices := vtt.map (fun u => p.vertices.getD u VertexColor.Taken),
     graph := buildComponentGraph p vtt }, r.2)

/-- One vertex scan of `Position::decompositions`: launch a BFS when the
vertex is not taken and not yet visited. -/
def decompStep (p : Position) (s : List Position × List Bool) (v : Nat) :
    List Position × List Bool :=
  if p.vertices.getD v VertexColor.Taken ≠ VertexColor.Taken ∧
      s.2.getD v true = false then
    let r := p.bfs s.2 v
    (s.1 ++ [r.1], r.2)
  else s

/-- `Position::decompositions`: scan the vertices in order, launching a BFS
from every unvisited, not-taken vertex; the visited vector is threaded
through the components. -/
def decompositions (p : Position) : List Position :=
  (p.graph.vertices.foldl (decompStep p) ([], List.replicate p.vertices.length false)).1

end Position

/-! ## The canonical-form backend

Modelled from the spec: the value type `CanonicalForm` and its operations
(`construct_integer`, `construct_from_moves`, `construct_sum`) live in
`short_canonical_game`, which is not part of the reviewed tree.  Per the
spec, a stored canonical form denotes a short partizan game value;
`construct_from_moves` returns a form *equal in value* to the input `Moves`
(§4.4), `construct_sum` the disjunctive sum (§4.5), and equality of
canonical forms coincides with semantic equality in the value algebra
(§3, invariant 2).  We therefore model a `Game` as a raw game tree (finite
lists of left and right options) and compare games by the standard partizan
order, under which two trees are identified exactly when they have the same
canonical form. -/

inductive Game where
  | mk : List Game → List Game → Game

/-- Left options of a game tree. -/
def Game.leftOptions : Game → List Game
  | .mk l _ => l

/-- Right options of a game tree. -/
def Game.rightOptions : Game → List Game
  | .mk _ r => r

/-- The zero game `{ | }`, the value of `construct_integer(0)`. -/
def Game.zero : Game := Game.mk [] []

/-- `G ≤ H` for partizan game trees, with fuel: no left option of `G` is
`≥ H`-refuting and no right option of `H` is `≤ G`-refuting; concretely
`G ≤ H` iff no `gl ∈ L(G)` has `H ≤ gl` and no `hr ∈ R(H)` has `hr ≤ G`. -/
def Game.bleF : Nat → Game → Game → Bool
  | 0, _, _ => false
  | fuel + 1, g, h =>
    (g.leftOptions.all fun gl => !(Game.bleF fuel h gl)) &&
    (h.rightOptions.all fun hr => !(Game.bleF fuel hr g))

mutual

/-- Size of a game tree (number of nodes), the recursion measure of the
value algebra. -/
def Game.size : Game → Nat
  | .mk l r => 1 + Game.sizeList l + Game.sizeList r

def Game.sizeList : List Game → Nat
  | [] => 0
  | g :: t => 1 + Game.size g + Game.sizeList t

end

/-- Fuel sufficient to decide `bleF` on `g, h`. -/
def Game.bleFuel (g h : Game) : Nat := Game.size g + Game.size h

/-- The partizan order on game trees (with canonical fuel). -/
def Game.ble (g h : Game) : Bool := Game.bleF (Game.bleFuel g h) g h

/-- `g` and `h` have the same game value, i.e. the same canonical form. -/
def Game.equivb (g h : Game) : Bool := Game.ble g h && Game.ble h g

/-- `G ≤ H` as a proposition. -/
def Game.Le (g h : Game) : Prop := Game.ble g h = true

/-- Game-value equality as a proposition. -/
def Game.Equiv (g h : Game) : Prop := Game.Le g h ∧ Game.Le h g

instance (g h : Game) : Decidable (Game.Le g h) := by
  unfold Game.Le; infer_instance

instance (g h : Game) : Decidable (Game.Equiv g h) := by
  unfold Game.Equiv; exact instDecidableAnd

/-- Disjunctive sum of game trees with fuel (spec §4.5): left options are
`{gl + h}` then `{g + hl}`, symmetrically on the right. -/
def Game.addF : Nat → Game → Game → Game
  | 0, _, _ => Game.zero
  | fuel + 1, g, h =>
    Game.mk
      ((g.leftOptions.map fun gl => Game.addF fuel gl h) ++
        (h.leftOptions.map fun hl => Game.addF fuel g hl))
      ((g.rightOptions.map fun gr => Game.addF fuel gr h) ++
        (h.rightOptions.map fun hr => Game.addF fuel g hr))

/-- Disjunctive sum (`construct_sum`) of game trees. -/
def Game.add (g h : Game) : Game := Game.addF (Game.size g + Game.size h) g h

/-! ## The transposition table and the memoized driver

Modelled from the spec: `TranspositionTable` (not part of the reviewed tree)
is "a mapping from `P` to `CanonicalForm`" backed by the reviewed
`RwHashMap`; `grids_get`/`grids_insert` are its `get`/`insert`. -/

/-- The transposition table of the Snort search. -/
def TT : Type := RwHashMap Position Game

instance : DecidableEq Position := inferInstance

/-- `position.canonical_form(cache)` mapped over a list of positions,
threading the shared cache left to right (the Rust iterator chain
`moves.iter().map(|o| o.canonical_form(cache)).collect()`). -/
def mapThreadStep (f : Position → TT → Game × TT) (s : List Game × TT) (p : Position) :
    List Game × TT :=
  let r := f p s.2
  (s.1 ++ [r.1], r.2)

def mapThread (f : Position → TT → Game × TT) (ps : List Position) (t : TT) :
    List Game × TT :=
  ps.foldl (mapThreadStep f) ([], t)

/-- The color of vertex `i` (out-of-range reads default to `Taken`, which a
well-formed position never exercises). -/
def colorAt (p : Position) (i : Nat) : VertexColor :=
  p.vertices.getD i VertexColor.Taken

/-- Number of not-taken vertices of the game graph: the termination measure
of the canonical-form recursion (every move takes a vertex). -/
def mv (p : Position) : Nat :=
  (List.range p.graph.size).countP (fun i => colorAt p i ≠ VertexColor.Taken)

/-- One component of the sum of `Position::canonical_form`: use the cached
component form if present, otherwise canonicalize the `Moves` built from the
recursively computed options of the component and cache it; either way add
it to the running sum (`construct_sum(sub_result, result)`). -/
def compStep (f : Position → TT → Game × TT) (s : Game × TT) (c : Position) : Game × TT :=
  match rwGet s.2 c with
  | some cf => (Game.add cf s.1, s.2)
  | none =>
    let ls := mapThread f c.left_moves s.2
    let rs := mapThread f c.right_moves ls.2
    let cf := Game.mk ls.1 rs.1
    (Game.add cf s.1, rwInsert rs.2 c cf)

/-- `Position::canonical_form` with fuel: return the cached form if present;
otherwise sum, over the decomposition's components, the cached component
form or the form canonicalized from the recursively computed left and right
options (inserting it into the cache), and cache the total under `self`. -/
def canonicalFormFuel : Nat → Position → TT → Game × TT
  | 0, _, t => (Game.zero, t)
  | fuel + 1, p, t =>
    match rwGet t p with
    | some g => (g, t)
    | none =>
      let s := p.decompositions.foldl (compStep (canonicalFormFuel fuel)) (Game.zero, t)
      (s.1, rwInsert s.2 p s.1)

/-- `Position::canonical_form`: the fuel `mv p + 1` always suffices, since
every move of every component strictly decreases `mv`. -/
def canonical_form (p : Position) (t : TT) : Game × TT :=
  canonicalFormFuel (mv p + 1) p t

/-- The reference (memoization-free) value of a Snort position: the sum over
the components of the game whose options are the recursively computed values
of the component's moves.  This is the driver run with a table that caches
nothing. -/
def snortVal : Nat → Position → Game
  | 0, _ => Game.zero
  | fuel + 1, p =>
    p.decompositions.foldl
      (fun acc c =>
        Game.add
          (Game.mk (c.left_moves.map (snortVal fuel)) (c.right_moves.map (snortVal fuel)))
          acc)
      Game.zero

/-- The game value of a Snort position. -/
def snortGame (p : Position) : Game := snortVal (mv p + 1) p

/-! ## Lemmas about the map model -/

/-- The value most recently inserted for `key` since the last `clear`
(`none` when no such insert exists). -/
def lastInserted {K V : Type} [DecidableEq K] (key : K) (ops : List (MapOp K V)) : Option V :=
  ops.foldl
    (fun acc op =>
      match op with
      | .insert k v => if k = key then some v else acc
      | .clear => none)
    none

theorem rwGet_rwInsert {K V : Type} [DecidableEq K] (m : RwHashMap K V) (k key : K) (v : V) :
    rwGet (rwInsert m k v) key = if k = key then some v else rwGet m key := by
  induction m with
  | nil => simp [rwInsert, rwGet]
  | cons hd tl ih =>
    obtain ⟨k0, v0⟩ := hd
    by_cases h0 : k0 = k
    · subst h0
      simp [rwInsert, rwGet]
      by_cases h1 : k0 = key <;> simp [h1, rwGet]
    · simp only [rwInsert, if_neg h0, rwGet]
      by_cases h1 : k0 = key
      · have hk : ¬ k = key := fun h => h0 (h1.trans h.symm)
        simp [h1, hk, rwGet]
      · simp [h1, ih]

theorem rwInsert_rwInsert_same {K V : Type} [DecidableEq K] (m : RwHashMap K V) (k : K) (v : V) :
    rwInsert (rwInsert m k v) k v = rwInsert m k v := by
  induction m with
  | nil => simp [rwInsert]
  | cons hd tl ih =>
    obtain ⟨k0, v0⟩ := hd
    by_cases h0 : k0 = k
    · subst h0; simp [rwInsert]
    · simp [rwInsert, h0, ih]

theorem exec_get_lastInserted {K V : Type} [DecidableEq K] (key : K) (ops : List (MapOp K V)) :
    ∀ m : RwHashMap K V,
      rwGet
        (ops.foldl
          (fun m op =>
            match op with
            | .insert k v => rwInsert m k v
            | .clear => rwClear m)
          m)
        key =
      ops.foldl
        (fun acc op =>
          match op with
          | .insert k v => if k = key then some v else acc
          | .clear => none)
        (rwGet m key) := by
  induction ops with
  | nil => intro m; rfl
  | cons op rest ih =>
    intro m
    cases op with
    | insert k v =>
      simp only [List.foldl_cons]
      rw [ih, rwGet_rwInsert]
    | clear =>
      simp only [List.foldl_cons]
      rw [ih]
      rfl

theorem fresh_get_none {K V : Type} [DecidableEq K] (key : K) (ops : List (MapOp K V)) :
    ∀ (b : Bool) (m : RwHashMap K V),
      ops.foldl
          (fun fresh op =>
            match op with
            | .insert k _ => fresh && !(k = key : Bool)
            | .clear => true)
          b = true →
      (b = true → rwGet m key = none) →
      rwGet
        (ops.foldl
          (fun m op =>
            match op with
            | .insert k v => rwInsert m k v
            | .clear => rwClear m)
          m)
        key = none := by
  induction ops with
  | nil => intro b m hf hm; exact hm hf
  | cons op rest ih =>
    intro b m hf hm
    cases op with
    | insert k v =>
      simp only [List.foldl_cons] at hf ⊢
      refine ih _ _ hf ?_
      intro hb
      rw [Bool.and_eq_true] at hb
      have hk : ¬ k = key := by
        have := hb.2
        simp only [Bool.not_eq_true'] at this
        exact of_decide_eq_false this
      rw [rwGet_rwInsert]
      simp [hk, hm hb.1]
    | clear =>
      simp only [List.foldl_cons] at hf ⊢
      refine ih _ _ hf ?_
      intro _
      rfl

/-! ## Claims C4 and C7: the transposition-table mapping -/

/-- C4 (counterexample): inserting value 1 then value 2 for key 0 makes
`get` return the most recent value 2, not the first-inserted value 1 — with
`HashMap::insert` semantics a later insert for the same key overwrites. -/
theorem c4_counterexample :
    rwGet (execOps [MapOp.insert 0 1, MapOp.insert 0 2] : RwHashMap Nat Nat) 0 ≠ some 1 ∧
    rwGet (execOps [MapOp.insert 0 1, MapOp.insert 0 2] : RwHashMap Nat Nat) 0 = some 2 := by
  decide

/-- C4 (amended): a repeated insert for an already-present key with the same
value is a no-op, and in every state reachable by the map operations the
value returned by `get` for a key equals the value *most recently* inserted
for that key since the last `clear` (`none` when there is none). -/
theorem c4_insert_value_semantics {K V : Type} [DecidableEq K]
    (m : RwHashMap K V) (k : K) (v : V) (ops : List (MapOp K V)) (key : K) :
    rwInsert (rwInsert m k v) k v = rwInsert m k v ∧
    rwGet (execOps ops) key = lastInserted key ops := by
  refine ⟨rwInsert_rwInsert_same m k v, ?_⟩
  unfold execOps lastInserted
  rw [exec_get_lastInserted]
  rfl

/-- C7: `get` after `insert` of the same key returns the inserted value; an
insert for a different key does not disturb `get`; a key fresh since the
last `clear` reads `none`; after `clear` the length is `0` and every `get`
returns `none`. -/
theorem c7_query_correct {K V : Type} [DecidableEq K]
    (m : RwHashMap K V) (k k' : K) (v v' : V) (ops : List (MapOp K V)) :
    rwGet (rwInsert m k v) k = some v ∧
    (k' ≠ k → rwGet (rwInsert m k' v') k = rwGet m k) ∧
    (freshSinceClear k ops = true → rwGet (execOps ops) k = none) ∧
    (rwLen (rwClear m) = 0 ∧ rwGet (rwClear m) k = none) := by
  refine ⟨?_, ?_, ?_, ?_, ?_⟩
  · rw [rwGet_rwInsert]; simp
  · intro hne
    rw [rwGet_rwInsert]
    simp [hne]
  · intro hf
    unfold freshSinceClear at hf
    unfold execOps
    exact fresh_get_none k ops true rwNew hf (fun _ => rfl)
  · rfl
  · rfl

/-- C7 witness: the theorem applied at concrete inputs, discharging the
hypotheses of the conditional conjuncts. -/
theorem c7_query_correct_witness :
    rwGet (rwInsert ([(0, 5)] : RwHashMap Nat Nat) 1 9) 1 = some 9 ∧
    rwGet (rwInsert ([(0, 5)] : RwHashMap Nat Nat) 0 7) 1 = rwGet ([(0, 5)] : RwHashMap Nat Nat) 1 ∧
    rwGet (execOps [MapOp.insert 1 3, MapOp.clear, MapOp.insert 0 4] : RwHashMap Nat Nat) 1 = none := by
  refine ⟨?_, ?_, ?_⟩
  · exact (c7_query_correct [(0, 5)] 1 0 9 7 []).1
  · exact (c7_query_correct [(0, 5)] 1 0 9 7 []).2.1 (by decide)
  · exact (c7_query_correct [] 1 0 9 7 [MapOp.insert 1 3, MapOp.clear, MapOp.insert 0 4]).2.2.1
      (by decide)

/-! ## List indexing helpers -/

theorem getD_set_self {α : Type} (l : List α) (i : Nat) (a d : α) (h : i < l.length) :
    (l.set i a).getD i d = a := by
  induction l generalizing i with
  | nil => simp at h
  | cons hd tl ih =>
    cases i with
    | zero => rfl
    | succ n =>
      simp only [List.length_cons] at h
      simpa [List.set, List.getD] using ih n (by omega)

theorem getD_set_ne {α : Type} (l : List α) (i j : Nat) (a d : α) (h : i ≠ j) :
    (l.set i a).getD j d = l.getD j d := by
  induction l generalizing i j with
  | nil => simp [List.set]
  | cons hd tl ih =>
    cases i with
    | zero =>
      cases j with
      | zero => exact absurd rfl h
      | succ n => rfl
    | succ n =>
      cases j with
      | zero => rfl
      | succ m => simpa [List.set, List.getD] using ih n m (fun hh => h (by omega))

theorem length_set_eq {α : Type} (l : List α) (i : Nat) (a : α) :
    (l.set i a).length = l.length := by
  simp

theorem getD_set_d {α : Type} (l : List α) (i : Nat) (a : α) :
    (l.set i a).getD i a = a := by
  by_cases h : i < l.length
  · exact getD_set_self l i a a h
  · rw [List.set_eq_of_length_le (by omega)]
    rw [List.getD_eq_getElem?_getD, List.getElem?_eq_none (by omega)]
    rfl

/-! ## Claims C9 and C10: `DirectedGraph` -/

/-- C9: on a well-formed graph (adjacency matrix of length `size * size`),
`connect u v b` makes `are_adjacent u v` return `b`, leaves `size`
unchanged, and leaves `are_adjacent x y` unchanged for every other in-range
pair `(x, y)`. -/
theorem c9_connect_frame (g : DirectedGraph) (u v : Nat) (b : Bool)
    (hwf : g.adjacency_matrix.length = g.size * g.size)
    (hu : u < g.size) (hv : v < g.size) :
    (g.connect u v b).are_adjacent u v = b ∧
    (g.connect u v b).size = g.size ∧
    (∀ x y, x < g.size → y < g.size → ¬(x = u ∧ y = v) →
      (g.connect u v b).are_adjacent x y = g.are_adjacent x y) := by
  refine ⟨?_, rfl, ?_⟩
  · unfold DirectedGraph.connect DirectedGraph.are_adjacent
    apply getD_set_self
    rw [hwf]
    calc g.size * v + u < g.size * v + g.size := by omega
      _ = g.size * (v + 1) := by ring
      _ ≤ g.size * g.size := Nat.mul_le_mul_left _ (by omega)
  · intro x y hx hy hne
    unfold DirectedGraph.connect DirectedGraph.are_adjacent
    apply getD_set_ne
    intro hcell
    exact hne ⟨(matrix_index_inj hu hx hcell).1.symm, (matrix_index_inj hu hx hcell).2.symm⟩

/-- C9 witness: the theorem at a concrete graph and vertices. -/
theorem c9_connect_frame_witness :
    ((DirectedGraph.empty 2).connect 0 1 true).are_adjacent 0 1 = true ∧
    ((DirectedGraph.empty 2).connect 0 1 true).size = 2 ∧
    ((DirectedGraph.empty 2).connect 0 1 true).are_adjacent 1 0 =
      (DirectedGraph.empty 2).are_adjacent 1 0 := by
  have h := c9_connect_frame (DirectedGraph.empty 2) 0 1 true (by decide) (by decide) (by decide)
  exact ⟨h.1, h.2.1, h.2.2 1 0 (by decide) (by decide) (by decide)⟩

/-- C10: `from_vec` fails exactly when the vector length differs from
`size * size`; on success the graph has the given size and `are_adjacent`
reads `vec[size * in_vertex + out_vertex]`. -/
theorem c10_from_vec (size : Nat) (vec : List Bool) :
    (DirectedGraph.from_vec size vec = none ↔ vec.length ≠ size * size) ∧
    (∀ g, DirectedGraph.from_vec size vec = some g →
      g.size = size ∧
      ∀ out_vertex in_vertex, out_vertex < size → in_vertex < size →
        g.are_adjacent out_vertex in_vertex = vec.getD (size * in_vertex + out_vertex) false) := by
  constructor
  · unfold DirectedGraph.from_vec
    by_cases h : vec.length = size * size <;> simp [h]
  · intro g hg
    unfold DirectedGraph.from_vec at hg
    by_cases h : vec.length = size * size
    · simp only [h, ne_eq, not_true_eq_false, if_false] at hg
      cases hg
      exact ⟨rfl, fun o i _ _ => rfl⟩
    · simp [h] at hg

/-- C10 witness: the theorem at a concrete size and vector. -/
theorem c10_from_vec_witness :
    (DirectedGraph.from_vec 1 [] = none ↔ ([] : List Bool).length ≠ 1 * 1) ∧
    ∀ g, DirectedGraph.from_vec 1 [true] = some g →
      g.size = 1 ∧ g.are_adjacent 0 0 = [true].getD (1 * 0 + 0) false := by
  constructor
  · exact (c10_from_vec 1 []).1
  · intro g hg
    exact ⟨((c10_from_vec 1 [true]).2 g hg).1,
      ((c10_from_vec 1 [true]).2 g hg).2 0 0 (by decide) (by decide)⟩

/-! ## Claim C5: `Position::with_colors` -/

/-- C5: constructing a Snort position from an explicit color list fails
exactly when `vertices.len() != graph.size()`; on success the position holds
the given vertices and graph unchanged.  The canonicalization driver is a
total function, so this failure cannot arise from inside it. -/
theorem c5_with_colors (vs : List VertexColor) (g : Graph) :
    (Position.with_colors vs g = none ↔ vs.length ≠ g.size) ∧
    (∀ p, Position.with_colors vs g = some p → p.vertices = vs ∧ p.graph = g) ∧
    (∀ p t, ∃ r, canonical_form p t = r) := by
  refine ⟨?_, ?_, fun p t => ⟨canonical_form p t, rfl⟩⟩
  · unfold Position.with_colors
    by_cases h : vs.length = g.size <;> simp [h]
  · intro p hp
    unfold Position.with_colors at hp
    by_cases h : vs.length = g.size
    · simp only [h, ne_eq, not_true_eq_false, if_false] at hp
      cases hp
      exact ⟨rfl, rfl⟩
    · simp [h] at hp

/-- C5 witness: the theorem at a concrete list and graph. -/
theorem c5_with_colors_witness :
    (Position.with_colors [] (Graph.empty 1) = none ↔ ([] : List VertexColor).length ≠ (Graph.empty 1).size) ∧
    ∀ p, Position.with_colors [VertexColor.Empty] (Graph.empty 1) = some p →
      p.vertices = [VertexColor.Empty] ∧ p.graph = Graph.empty 1 := by
  exact ⟨(c5_with_colors [] (Graph.empty 1)).1,
    fun p hp => (c5_with_colors [VertexColor.Empty] (Graph.empty 1)).2.1 p hp⟩

/-! ## Claim C8: size invariant preservation -/

/-- A Snort position is well-formed when the color list matches the graph
order. -/
def WfPos (p : Position) : Prop := p.vertices.length = p.graph.size

theorem Graph.size_connect (g : Graph) (u v : Nat) (b : Bool) :
    (g.connect u v b).size = g.size := rfl

theorem foldl_inv {α β : Type _} (f : β → α → β) (P : β → Prop) :
    ∀ (l : List α) (b : β), P b → (∀ b a, a ∈ l → P b → P (f b a)) → P (l.foldl f b) := by
  intro l
  induction l with
  | nil => intro b hb _; exact hb
  | cons a t ih =>
    intro b hb hf
    exact ih (f b a) (hf b a (List.mem_cons_self a t) hb)
      (fun b' a' ha' hb' => hf b' a' (List.mem_cons_of_mem a ha') hb')

theorem make_move_step_shape (own : VertexColor) (i : Nat) (pos : Position) (a : Nat) :
    (Position.make_move_step own i pos a).vertices.length = pos.vertices.length ∧
    (Position.make_move_step own i pos a).graph.size = pos.graph.size := by
  unfold Position.make_move_step
  dsimp only []
  split
  · split
    · exact ⟨by simp, rfl⟩
    · refine ⟨by simp, ?_⟩
      show (List.foldl (fun g v => g.connect v a false) (pos.graph.connect i a false)
        (pos.graph.connect i a false).vertices).size = pos.graph.size
      exact foldl_inv (fun (g : Graph) v => g.connect v a false)
        (fun (g : Graph) => g.size = pos.graph.size) _ _ rfl
        (fun g v _ hg => by simpa [Graph.size_connect] using hg)
  · exact ⟨rfl, rfl⟩

theorem make_move_shape (p : Position) (own : VertexColor) (i : Nat) :
    (p.make_move own i).vertices.length = p.vertices.length ∧
    (p.make_move own i).graph.size = p.graph.size := by
  unfold Position.make_move
  apply foldl_inv (Position.make_move_step own i)
    (fun pos => pos.vertices.length = p.vertices.length ∧ pos.graph.size = p.graph.size)
  · exact ⟨by simp, rfl⟩
  · intro pos a _ hpos
    have h := make_move_step_shape own i pos a
    exact ⟨h.1.trans hpos.1, h.2.trans hpos.2⟩

theorem bcgInner_size (vtt : List Nat) (new_v : Nat) (g : Graph) (old_u : Nat) :
    (bcgInner vtt new_v g old_u).size = g.size := by
  unfold bcgInner
  cases vtt.findIdx? (fun x => x = old_u) <;> rfl

theorem bcgOuter_size (p : Position) (vtt : List Nat) (g : Graph) (pair : Nat × Nat) :
    (bcgOuter p vtt g pair).size = g.size := by
  unfold bcgOuter
  exact foldl_inv (bcgInner vtt pair.1) (fun (g' : Graph) => g'.size = g.size) _ _ rfl
    (fun g' u _ hg => (bcgInner_size vtt pair.1 g' u).trans hg)

theorem buildComponentGraph_size (p : Position) (vtt : List Nat) :
    (buildComponentGraph p vtt).size = vtt.length := by
  unfold buildComponentGraph
  exact foldl_inv (bcgOuter p vtt) (fun (g : Graph) => g.size = vtt.length) _ _ rfl
    (fun g pr _ hg => (bcgOuter_size p vtt g pr).trans hg)

/-- Every component produced by `Position::bfs` is well-formed: the rebuilt
color list and graph both have one entry per taken vertex. -/
theorem bfs_wf (p : Position) (visited : List Bool) (v : Nat) :
    (p.bfs visited v).1.vertices.length = (p.bfs visited v).1.graph.size := by
  unfold Position.bfs
  simp [buildComponentGraph_size]

/-- Every component of `Position::decompositions` is a BFS output (together
with the facts the decomposition loop guarantees about its start vertex). -/
theorem decompositions_mem (p : Position) :
    ∀ c ∈ p.decompositions, ∃ vis v,
      v < p.graph.size ∧
      p.vertices.getD v VertexColor.Taken ≠ VertexColor.Taken ∧
      vis.getD v true = false ∧
      c = (p.bfs vis v).1 := by
  unfold Position.decompositions
  refine foldl_inv (Position.decompStep p)
    (fun (s : List Position × List Bool) => ∀ c ∈ s.1, ∃ vis v,
      v < p.graph.size ∧
      p.vertices.getD v VertexColor.Taken ≠ VertexColor.Taken ∧
      vis.getD v true = false ∧
      c = (p.bfs vis v).1)
    p.graph.vertices ([], List.replicate p.vertices.length false)
    (by intro c hc; simp at hc)
    ?_
  intro s v hv hs
  unfold Position.decompStep
  split
  · intro c hc
    rename_i hcond
    rcases List.mem_append.1 hc with hc | hc
    · exact hs c hc
    · rcases List.mem_singleton.1 hc with rfl
      exact ⟨s.2, v, by simpa [Graph.vertices] using hv, hcond.1, hcond.2, rfl⟩
  · exact hs


/-- Membership in `moves_for` means being `make_move` of a legally colored
vertex index. -/
theorem moves_for_mem (p : Position) (own : VertexColor) :
    ∀ q ∈ p.moves_for own, ∃ i,
      i < p.vertices.length ∧
      (p.vertices.getD i VertexColor.Taken = own ∨
        p.vertices.getD i VertexColor.Taken = VertexColor.Empty) ∧
      q = p.make_move own i := by
  intro q hq
  unfold Position.moves_for at hq
  rcases List.mem_map.1 hq with ⟨i, hi, rfl⟩
  rcases List.mem_filter.1 hi with ⟨hir, hcol⟩
  refine ⟨i, List.mem_range.1 hir, ?_, rfl⟩
  simpa using of_decide_eq_true hcol

/-- C8: the moves and the decomposition components of a well-formed Snort
position are well-formed. -/
theorem c8_size_invariant (p : Position) (h : p.vertices.length = p.graph.size) :
    (∀ q ∈ p.left_moves, q.vertices.length = q.graph.size) ∧
    (∀ q ∈ p.right_moves, q.vertices.length = q.graph.size) ∧
    (∀ q ∈ p.decompositions, q.vertices.length = q.graph.size) := by
  have hmove : ∀ own, ∀ q ∈ p.moves_for own, q.vertices.length = q.graph.size := by
    intro own q hq
    rcases moves_for_mem p own q hq with ⟨i, _, _, rfl⟩
    rw [(make_move_shape p own i).1, (make_move_shape p own i).2, h]
  refine ⟨hmove VertexColor.TintLeft, hmove VertexColor.TintRight, ?_⟩
  intro q hq
  rcases decompositions_mem p q hq with ⟨vis, v, _, _, _, rfl⟩
  exact bfs_wf p vis v

/-- C8 witness: the size invariant at a concrete position and move. -/
theorem c8_size_invariant_witness :
    ({ vertices := [VertexColor.Taken, VertexColor.TintLeft],
       graph := { size := 2, adjacency_matrix := [false, false, false, false] } } :
        Position).vertices.length =
    ({ vertices := [VertexColor.Taken, VertexColor.TintLeft],
       graph := { size := 2, adjacency_matrix := [false, false, false, false] } } :
        Position).graph.size := by
  exact (c8_size_invariant (Position.new (Graph.from_edges 2 [(0, 1)])) (by decide)).1
    _ (by decide)

/-! ## The partizan order on game trees -/

theorem all_congr {α : Type _} (l : List α) (f g : α → Bool) (h : ∀ x ∈ l, f x = g x) :
    l.all f = l.all g := by
  induction l with
  | nil => rfl
  | cons a t ih =>
    simp only [List.all_cons]
    rw [h a (List.mem_cons_self a t), ih (fun x hx => h x (List.mem_cons_of_mem a hx))]

theorem Game.size_pos (g : Game) : 1 ≤ Game.size g := by
  cases g with
  | mk l r => simp only [Game.size]; omega

theorem Game.sizeList_mem (l : List Game) (g : Game) (h : g ∈ l) :
    1 + Game.size g ≤ Game.sizeList l := by
  induction l with
  | nil => cases h
  | cons a t ih =>
    rcases List.mem_cons.1 h with rfl | h
    · simp only [Game.sizeList]; omega
    · have := ih h
      simp only [Game.sizeList]
      omega

theorem Game.size_left_lt (l r : List Game) (g : Game) (h : g ∈ l) :
    Game.size g < Game.size (Game.mk l r) := by
  have := Game.sizeList_mem l g h
  simp [Game.size]
  omega

theorem Game.size_right_lt (l r : List Game) (g : Game) (h : g ∈ r) :
    Game.size g < Game.size (Game.mk l r) := by
  have := Game.sizeList_mem r g h
  simp [Game.size]
  omega

theorem Game.bleF_congr :
    ∀ (n : Nat) (g h : Game) (f1 f2 : Nat), Game.size g + Game.size h ≤ n →
      Game.size g + Game.size h ≤ f1 → Game.size g + Game.size h ≤ f2 →
      Game.bleF f1 g h = Game.bleF f2 g h := by
  intro n
  induction n with
  | zero => intro g h _ _ hn _ _; have := Game.size_pos g; omega
  | succ n ih =>
    intro g h f1 f2 hn h1 h2
    have hg1 := Game.size_pos g
    have hh1 := Game.size_pos h
    obtain ⟨f1', rfl⟩ : ∃ f1', f1 = f1' + 1 := ⟨f1 - 1, by omega⟩
    obtain ⟨f2', rfl⟩ : ∃ f2', f2 = f2' + 1 := ⟨f2 - 1, by omega⟩
    cases g with
    | mk gL gR =>
      cases h with
      | mk hL hR =>
        simp only [Game.bleF, Game.leftOptions, Game.rightOptions]
        congr 1
        · apply all_congr
          intro gl hgl
          have hlt := Game.size_left_lt gL gR gl hgl
          rw [ih (Game.mk hL hR) gl f1' f2' (by omega) (by omega) (by omega)]
        · apply all_congr
          intro hr hhr
          have hlt := Game.size_right_lt hL hR hr hhr
          rw [ih hr (Game.mk gL gR) f1' f2' (by omega) (by omega) (by omega)]

/-- The defining property of the partizan order: `G ≤ H` iff no left option
of `G` is `≥ H` and no right option of `H` is `≤ G`. -/
theorem Game.le_iff (g h : Game) :
    Game.Le g h ↔
      (∀ gl ∈ g.leftOptions, ¬ Game.Le h gl) ∧
      (∀ hr ∈ h.rightOptions, ¬ Game.Le hr g) := by
  have hg1 := Game.size_pos g
  have hh1 := Game.size_pos h
  unfold Game.Le Game.ble Game.bleFuel
  obtain ⟨n, hn⟩ : ∃ n, Game.size g + Game.size h = n + 1 :=
    ⟨Game.size g + Game.size h - 1, by omega⟩
  rw [hn]
  simp only [Game.bleF, Bool.and_eq_true, List.all_eq_true, Bool.not_eq_true']
  constructor
  · rintro ⟨hl, hr⟩
    constructor
    · intro gl hgl
      have := hl gl hgl
      rw [Game.bleF_congr (Game.size h + Game.size gl) h gl n (Game.size h + Game.size gl)
        (le_refl _) ?_ (le_refl _)] at this
      · rw [this]; simp
      · cases g with
        | mk gL gR => have := Game.size_left_lt gL gR gl hgl; omega
    · intro hr' hhr
      have := hr hr' hhr
      rw [Game.bleF_congr (Game.size hr' + Game.size g) hr' g n (Game.size hr' + Game.size g)
        (le_refl _) ?_ (le_refl _)] at this
      · rw [this]; simp
      · cases h with
        | mk hL hR => have := Game.size_right_lt hL hR hr' hhr; omega
  · rintro ⟨hl, hr⟩
    constructor
    · intro gl hgl
      have hfalse : Game.bleF (Game.size h + Game.size gl) h gl = false := by
        cases hb : Game.bleF (Game.size h + Game.size gl) h gl
        · rfl
        · exact absurd hb (hl gl hgl)
      rw [Game.bleF_congr (Game.size h + Game.size gl) h gl n (Game.size h + Game.size gl)
        (le_refl _) ?_ (le_refl _)]
      · exact hfalse
      · cases g with
        | mk gL gR => have := Game.size_left_lt gL gR gl hgl; omega
    · intro hr' hhr
      have hfalse : Game.bleF (Game.size hr' + Game.size g) hr' g = false := by
        cases hb : Game.bleF (Game.size hr' + Game.size g) hr' g
        · rfl
        · exact absurd hb (hr hr' hhr)
      rw [Game.bleF_congr (Game.size hr' + Game.size g) hr' g n (Game.size hr' + Game.size g)
        (le_refl _) ?_ (le_refl _)]
      · exact hfalse
      · cases h with
        | mk hL hR => have := Game.size_right_lt hL hR hr' hhr; omega

/-- The strict-unprovability characterization (`g ⧏ h` in CGT notation):
`¬(H ≤ G)` iff `G` fits below some left option of `H`, or some right option
of `G` fits below `H`. -/
theorem Game.not_le_iff (g h : Game) :
    ¬ Game.Le h g ↔
      (∃ hl ∈ h.leftOptions, Game.Le g hl) ∨
      (∃ gr ∈ g.rightOptions, Game.Le gr h) := by
  rw [Game.le_iff]
  push_neg
  constructor
  · intro hcon
    by_cases hl : ∃ hl ∈ h.leftOptions, Game.Le g hl
    · exact Or.inl hl
    · push_neg at hl
      rcases hcon hl with ⟨gr, hgr, hle⟩
      exact Or.inr ⟨gr, hgr, hle⟩
  · intro hcon hl
    rcases hcon with ⟨hl', hhl, hle⟩ | ⟨gr, hgr, hle⟩
    · exact absurd hle (hl hl' hhl)
    · exact ⟨gr, hgr, hle⟩

theorem Game.le_refl_aux : ∀ (n : Nat) (g : Game), Game.size g ≤ n → Game.Le g g := by
  intro n
  induction n with
  | zero => intro g hg; have := Game.size_pos g; omega
  | succ n ih =>
    intro g hg
    rw [Game.le_iff]
    constructor
    · intro gl hgl hle
      cases g with
      | mk l r =>
        have hlt := Game.size_left_lt l r gl hgl
        have hgl_le : Game.Le gl gl := ih gl (by omega)
        rw [Game.le_iff] at hle
        exact hle.1 gl hgl hgl_le
    · intro hr hhr hle
      cases g with
      | mk l r =>
        have hlt := Game.size_right_lt l r hr hhr
        have hhr_le : Game.Le hr hr := ih hr (by omega)
        rw [Game.le_iff] at hle
        exact hle.2 hr hhr hhr_le

/-- Reflexivity of the partizan order. -/
theorem Game.le_refl (g : Game) : Game.Le g g := Game.le_refl_aux (Game.size g) g (Nat.le_refl _)

theorem Game.le_trans_aux :
    ∀ (n : Nat) (x y z : Game), Game.size x + Game.size y + Game.size z ≤ n →
      Game.Le x y → Game.Le y z → Game.Le x z := by
  intro n
  induction n with
  | zero => intro x y z hn; have := Game.size_pos x; omega
  | succ n ih =>
    intro x y z hn hxy hyz
    rw [Game.le_iff]
    constructor
    · intro xl hxl hzxl
      -- `z ≤ xl` with `y ≤ z` gives `y ≤ xl`, refuted by `x ≤ y`.
      cases x with
      | mk xL xR =>
        have hlt := Game.size_left_lt xL xR xl hxl
        have hyxl : Game.Le y xl :=
          ih y z xl (by omega) hyz hzxl
        rw [Game.le_iff] at hxy
        exact hxy.1 xl hxl hyxl
    · intro zr hzr hzrx
      -- `zr ≤ x` with `x ≤ y` gives `zr ≤ y`, refuted by `y ≤ z`.
      cases z with
      | mk zL zR =>
        have hlt := Game.size_right_lt zL zR zr hzr
        have hzry : Game.Le zr y :=
          ih zr x y (by omega) hzrx hxy
        rw [Game.le_iff] at hyz
        exact hyz.2 zr hzr hzry

/-- Transitivity of the partizan order. -/
theorem Game.le_trans {x y z : Game} (hxy : Game.Le x y) (hyz : Game.Le y z) :
    Game.Le x z :=
  Game.le_trans_aux (Game.size x + Game.size y + Game.size z) x y z (Nat.le_refl _) hxy hyz

theorem Game.equiv_refl (g : Game) : Game.Equiv g g := ⟨Game.le_refl g, Game.le_refl g⟩

theorem Game.equiv_symm {g h : Game} (hgh : Game.Equiv g h) : Game.Equiv h g :=
  ⟨hgh.2, hgh.1⟩

theorem Game.equiv_trans {g h k : Game} (hgh : Game.Equiv g h) (hhk : Game.Equiv h k) :
    Game.Equiv g k :=
  ⟨Game.le_trans hgh.1 hhk.1, Game.le_trans hhk.2 hgh.2⟩

/-! ## The disjunctive sum and its interaction with the order -/

theorem Game.addF_congr :
    ∀ (n : Nat) (g h : Game) (f1 f2 : Nat), Game.size g + Game.size h ≤ n →
      Game.size g + Game.size h ≤ f1 → Game.size g + Game.size h ≤ f2 →
      Game.addF f1 g h = Game.addF f2 g h := by
  intro n
  induction n with
  | zero => intro g h _ _ hn _ _; have := Game.size_pos g; omega
  | succ n ih =>
    intro g h f1 f2 hn h1 h2
    have hg1 := Game.size_pos g
    have hh1 := Game.size_pos h
    obtain ⟨f1', rfl⟩ : ∃ f1', f1 = f1' + 1 := ⟨f1 - 1, by omega⟩
    obtain ⟨f2', rfl⟩ : ∃ f2', f2 = f2' + 1 := ⟨f2 - 1, by omega⟩
    cases g with
    | mk gL gR =>
      cases h with
      | mk hL hR =>
        simp only [Game.addF, Game.leftOptions, Game.rightOptions, Game.mk.injEq]
        constructor
        · congr 1
          · apply List.map_congr_left
            intro gl hgl
            have := Game.size_left_lt gL gR gl hgl
            exact ih gl (Game.mk hL hR) f1' f2' (by omega) (by omega) (by omega)
          · apply List.map_congr_left
            intro hl hhl
            have := Game.size_left_lt hL hR hl hhl
            exact ih (Game.mk gL gR) hl f1' f2' (by omega) (by omega) (by omega)
        · congr 1
          · apply List.map_congr_left
            intro gr hgr
            have := Game.size_right_lt gL gR gr hgr
            exact ih gr (Game.mk hL hR) f1' f2' (by omega) (by omega) (by omega)
          · apply List.map_congr_left
            intro hr hhr
            have := Game.size_right_lt hL hR hr hhr
            exact ih (Game.mk gL gR) hr f1' f2' (by omega) (by omega) (by omega)

/-- Unfolding of the disjunctive sum: options are options-of-one-summand
plus the other summand. -/
theorem Game.add_def (l1 r1 l2 r2 : List Game) :
    Game.add (Game.mk l1 r1) (Game.mk l2 r2) =
      Game.mk
        ((l1.map fun gl => Game.add gl (Game.mk l2 r2)) ++
          (l2.map fun hl => Game.add (Game.mk l1 r1) hl))
        ((r1.map fun gr => Game.add gr (Game.mk l2 r2)) ++
          (r2.map fun hr => Game.add (Game.mk l1 r1) hr)) := by
  have hg1 := Game.size_pos (Game.mk l1 r1)
  have hh1 := Game.size_pos (Game.mk l2 r2)
  obtain ⟨n, hn⟩ : ∃ n, Game.size (Game.mk l1 r1) + Game.size (Game.mk l2 r2) = n + 1 :=
    ⟨Game.size (Game.mk l1 r1) + Game.size (Game.mk l2 r2) - 1, by omega⟩
  show Game.addF (Game.size (Game.mk l1 r1) + Game.size (Game.mk l2 r2)) _ _ = _
  rw [hn]
  simp only [Game.addF, Game.leftOptions, Game.rightOptions]
  congr 1
  · congr 1
    · apply List.map_congr_left
      intro gl hgl
      have := Game.size_left_lt l1 r1 gl hgl
      exact Game.addF_congr n gl (Game.mk l2 r2) n _ (by omega) (by omega) (by omega)
    · apply List.map_congr_left
      intro hl hhl
      have := Game.size_left_lt l2 r2 hl hhl
      exact Game.addF_congr n (Game.mk l1 r1) hl n _ (by omega) (by omega) (by omega)
  · congr 1
    · apply List.map_congr_left
      intro gr hgr
      have := Game.size_right_lt l1 r1 gr hgr
      exact Game.addF_congr n gr (Game.mk l2 r2) n _ (by omega) (by omega) (by omega)
    · apply List.map_congr_left
      intro hr hhr
      have := Game.size_right_lt l2 r2 hr hhr
      exact Game.addF_congr n (Game.mk l1 r1) hr n _ (by omega) (by omega) (by omega)

theorem Game.add_leftOptions (g h : Game) :
    (Game.add g h).leftOptions =
      (g.leftOptions.map fun a => Game.add a h) ++
        (h.leftOptions.map fun a => Game.add g a) := by
  cases g with
  | mk l1 r1 =>
    cases h with
    | mk l2 r2 => rw [Game.add_def]; rfl

theorem Game.add_rightOptions (g h : Game) :
    (Game.add g h).rightOptions =
      (g.rightOptions.map fun a => Game.add a h) ++
        (h.rightOptions.map fun a => Game.add g a) := by
  cases g with
  | mk l1 r1 =>
    cases h with
    | mk l2 r2 => rw [Game.add_def]; rfl

/-- Monotonicity of the disjunctive sum in the partizan order, in all four
combinations of side and strictness, proven simultaneously by induction on
total size. -/
theorem Game.add_le_pack :
    ∀ (n : Nat) (x y z : Game), Game.size x + Game.size y + Game.size z ≤ n →
      ((Game.Le y z → Game.Le (Game.add x y) (Game.add x z)) ∧
       (Game.Le y z → Game.Le (Game.add y x) (Game.add z x)) ∧
       (¬ Game.Le z y → ¬ Game.Le (Game.add x z) (Game.add x y)) ∧
       (¬ Game.Le z y → ¬ Game.Le (Game.add z x) (Game.add y x))) := by
  intro n
  induction n with
  | zero => intro x y z hn; have := Game.size_pos x; omega
  | succ n ih =>
    intro x y z hn
    refine ⟨?_, ?_, ?_, ?_⟩
    -- Tl : y ≤ z → x + y ≤ x + z
    · intro h
      rw [Game.le_iff]
      constructor
      · intro w hw
        rw [Game.add_leftOptions] at hw
        rcases List.mem_append.1 hw with hw | hw
        · rcases List.mem_map.1 hw with ⟨xl, hxl, rfl⟩
          rw [Game.not_le_iff]
          refine Or.inl ⟨Game.add xl z, ?_, ?_⟩
          · rw [Game.add_leftOptions]
            exact List.mem_append.2 (Or.inl (List.mem_map.2 ⟨xl, hxl, rfl⟩))
          · cases x with
            | mk xL xR =>
              have := Game.size_left_lt xL xR xl hxl
              exact (ih xl y z (by omega)).1 h
        · rcases List.mem_map.1 hw with ⟨yl, hyl, rfl⟩
          cases y with
          | mk yL yR =>
            have hzyl : ¬ Game.Le z yl := (Game.le_iff _ _).1 h |>.1 yl hyl
            have := Game.size_left_lt yL yR yl hyl
            exact (ih x yl z (by omega)).2.2.1 hzyl
      · intro w hw
        rw [Game.add_rightOptions] at hw
        rcases List.mem_append.1 hw with hw | hw
        · rcases List.mem_map.1 hw with ⟨xr, hxr, rfl⟩
          rw [Game.not_le_iff]
          refine Or.inr ⟨Game.add xr y, ?_, ?_⟩
          · rw [Game.add_rightOptions]
            exact List.mem_append.2 (Or.inl (List.mem_map.2 ⟨xr, hxr, rfl⟩))
          · cases x with
            | mk xL xR =>
              have := Game.size_right_lt xL xR xr hxr
              exact (ih xr y z (by omega)).1 h
        · rcases List.mem_map.1 hw with ⟨zr, hzr, rfl⟩
          cases z with
          | mk zL zR =>
            have hzry : ¬ Game.Le zr y := (Game.le_iff _ _).1 h |>.2 zr hzr
            have := Game.size_right_lt zL zR zr hzr
            exact (ih x y zr (by omega)).2.2.1 hzry
    -- Tr : y ≤ z → y + x ≤ z + x
    · intro h
      rw [Game.le_iff]
      constructor
      · intro w hw
        rw [Game.add_leftOptions] at hw
        rcases List.mem_append.1 hw with hw | hw
        · rcases List.mem_map.1 hw with ⟨yl, hyl, rfl⟩
          cases y with
          | mk yL yR =>
            have hzyl : ¬ Game.Le z yl := (Game.le_iff _ _).1 h |>.1 yl hyl
            have := Game.size_left_lt yL yR yl hyl
            exact (ih x yl z (by omega)).2.2.2 hzyl
        · rcases List.mem_map.1 hw with ⟨xl, hxl, rfl⟩
          rw [Game.not_le_iff]
          refine Or.inl ⟨Game.add z xl, ?_, ?_⟩
          · rw [Game.add_leftOptions]
            exact List.mem_append.2 (Or.inr (List.mem_map.2 ⟨xl, hxl, rfl⟩))
          · cases x with
            | mk xL xR =>
              have := Game.size_left_lt xL xR xl hxl
              exact (ih xl y z (by omega)).2.1 h
      · intro w hw
        rw [Game.add_rightOptions] at hw
        rcases List.mem_append.1 hw with hw | hw
        · rcases List.mem_map.1 hw with ⟨zr, hzr, rfl⟩
          cases z with
          | mk zL zR =>
            have hzry : ¬ Game.Le zr y := (Game.le_iff _ _).1 h |>.2 zr hzr
            have := Game.size_right_lt zL zR zr hzr
            exact (ih x y zr (by omega)).2.2.2 hzry
        · rcases List.mem_map.1 hw with ⟨xr, hxr, rfl⟩
          rw [Game.not_le_iff]
          refine Or.inr ⟨Game.add y xr, ?_, ?_⟩
          · rw [Game.add_rightOptions]
            exact List.mem_append.2 (Or.inr (List.mem_map.2 ⟨xr, hxr, rfl⟩))
          · cases x with
            | mk xL xR =>
              have := Game.size_right_lt xL xR xr hxr
              exact (ih xr y z (by omega)).2.1 h
    -- Ul : ¬(z ≤ y) → ¬(x + z ≤ x + y)
    · intro h
      rw [Game.not_le_iff] at h
      rcases h with ⟨zl, hzl, hyzl⟩ | ⟨yr, hyr, hyrz⟩
      · rw [Game.not_le_iff]
        refine Or.inl ⟨Game.add x zl, ?_, ?_⟩
        · rw [Game.add_leftOptions]
          exact List.mem_append.2 (Or.inr (List.mem_map.2 ⟨zl, hzl, rfl⟩))
        · cases z with
          | mk zL zR =>
            have := Game.size_left_lt zL zR zl hzl
            exact (ih x y zl (by omega)).1 hyzl
      · rw [Game.not_le_iff]
        refine Or.inr ⟨Game.add x yr, ?_, ?_⟩
        · rw [Game.add_rightOptions]
          exact List.mem_append.2 (Or.inr (List.mem_map.2 ⟨yr, hyr, rfl⟩))
        · cases y with
          | mk yL yR =>
            have := Game.size_right_lt yL yR yr hyr
            exact (ih x yr z (by omega)).1 hyrz
    -- Ur : ¬(z ≤ y) → ¬(z + x ≤ y + x)
    · intro h
      rw [Game.not_le_iff] at h
      rcases h with ⟨zl, hzl, hyzl⟩ | ⟨yr, hyr, hyrz⟩
      · rw [Game.not_le_iff]
        refine Or.inl ⟨Game.add zl x, ?_, ?_⟩
        · rw [Game.add_leftOptions]
          exact List.mem_append.2 (Or.inl (List.mem_map.2 ⟨zl, hzl, rfl⟩))
        · cases z with
          | mk zL zR =>
            have := Game.size_left_lt zL zR zl hzl
            exact (ih x y zl (by omega)).2.1 hyzl
      · rw [Game.not_le_iff]
        refine Or.inr ⟨Game.add yr x, ?_, ?_⟩
        · rw [Game.add_rightOptions]
          exact List.mem_append.2 (Or.inl (List.mem_map.2 ⟨yr, hyr, rfl⟩))
        · cases y with
          | mk yL yR =>
            have := Game.size_right_lt yL yR yr hyr
            exact (ih x yr z (by omega)).2.1 hyrz

/-- `y ≤ z → x + y ≤ x + z`. -/
theorem Game.add_le_add_left {y z : Game} (h : Game.Le y z) (x : Game) :
    Game.Le (Game.add x y) (Game.add x z) :=
  (Game.add_le_pack (Game.size x + Game.size y + Game.size z) x y z (Nat.le_refl _)).1 h

/-- `y ≤ z → y + x ≤ z + x`. -/
theorem Game.add_le_add_right {y z : Game} (h : Game.Le y z) (x : Game) :
    Game.Le (Game.add y x) (Game.add z x) :=
  (Game.add_le_pack (Game.size x + Game.size y + Game.size z) x y z (Nat.le_refl _)).2.1 h

/-- The sum respects game-value equality. -/
theorem Game.add_congr {a a' b b' : Game} (ha : Game.Equiv a a') (hb : Game.Equiv b b') :
    Game.Equiv (Game.add a b) (Game.add a' b') :=
  ⟨Game.le_trans (Game.add_le_add_right ha.1 b) (Game.add_le_add_left hb.1 a'),
   Game.le_trans (Game.add_le_add_right ha.2 b') (Game.add_le_add_left hb.2 a)⟩

/-- `G + 0 = G` holds *structurally* for game trees. -/
theorem Game.add_zero : ∀ (n : Nat) (g : Game), Game.size g ≤ n → Game.add g Game.zero = g := by
  intro n
  induction n with
  | zero => intro g hg; have := Game.size_pos g; omega
  | succ n ih =>
    intro g hg
    cases g with
    | mk l r =>
      show Game.add (Game.mk l r) (Game.mk [] []) = _
      rw [Game.add_def]
      simp only [List.map_nil, List.append_nil, Game.mk.injEq]
      constructor
      · have h1 : ∀ gl ∈ l, Game.add gl (Game.mk [] []) = gl := by
          intro gl hgl
          have := Game.size_left_lt l r gl hgl
          exact ih gl (by omega)
        rw [List.map_congr_left h1]
        exact List.map_id l
      · have h1 : ∀ gr ∈ r, Game.add gr (Game.mk [] []) = gr := by
          intro gr hgr
          have := Game.size_right_lt l r gr hgr
          exact ih gr (by omega)
        rw [List.map_congr_left h1]
        exact List.map_id r

theorem Game.add_zero_eq (g : Game) : Game.add g Game.zero = g :=
  Game.add_zero (Game.size g) g (Nat.le_refl _)

theorem forall2_mem_left {α β : Type _} {r : α → β → Prop} {l : List α} {l' : List β}
    (h : List.Forall₂ r l l') : ∀ a ∈ l, ∃ b ∈ l', r a b := by
  induction h with
  | nil => intro a ha; cases ha
  | cons hr _ ih =>
    intro a ha
    rcases List.mem_cons.1 ha with rfl | ha
    · exact ⟨_, List.mem_cons_self _ _, hr⟩
    · rcases ih a ha with ⟨b, hb, hab⟩
      exact ⟨b, List.mem_cons_of_mem _ hb, hab⟩

theorem forall2_mem_right {α β : Type _} {r : α → β → Prop} {l : List α} {l' : List β}
    (h : List.Forall₂ r l l') : ∀ b ∈ l', ∃ a ∈ l, r a b := by
  induction h with
  | nil => intro b hb; cases hb
  | cons hr _ ih =>
    intro b hb
    rcases List.mem_cons.1 hb with rfl | hb
    · exact ⟨_, List.mem_cons_self _ _, hr⟩
    · rcases ih b hb with ⟨a, ha, hab⟩
      exact ⟨a, List.mem_cons_of_mem _ ha, hab⟩

/-- Sufficient condition for `{L | R} ≤ {L' | R'}`: every `L`-option is
covered above by an `L'`-option, every `R'`-option is covered below by an
`R`-option. -/
theorem Game.mk_le_mk {L R L' R' : List Game}
    (hL : ∀ gl ∈ L, ∃ gl' ∈ L', Game.Le gl gl')
    (hR : ∀ hr' ∈ R', ∃ hr ∈ R, Game.Le hr hr') :
    Game.Le (Game.mk L R) (Game.mk L' R') := by
  rw [Game.le_iff]
  constructor
  · intro gl hgl
    rw [Game.not_le_iff]
    rcases hL gl hgl with ⟨gl', hgl', hle⟩
    exact Or.inl ⟨gl', hgl', hle⟩
  · intro hr' hhr'
    rw [Game.not_le_iff]
    rcases hR hr' hhr' with ⟨hr, hhr, hle⟩
    exact Or.inr ⟨hr, hhr, hle⟩

/-- Replacing every option by an equivalent game yields an equivalent
game. -/
theorem Game.mk_congr {L R L' R' : List Game}
    (hL : List.Forall₂ Game.Equiv L L') (hR : List.Forall₂ Game.Equiv R R') :
    Game.Equiv (Game.mk L R) (Game.mk L' R') := by
  constructor
  · apply Game.mk_le_mk
    · intro gl hgl
      rcases forall2_mem_left hL gl hgl with ⟨gl', hgl', he⟩
      exact ⟨gl', hgl', he.1⟩
    · intro hr' hhr'
      rcases forall2_mem_right hR hr' hhr' with ⟨hr, hhr, he⟩
      exact ⟨hr, hhr, he.1⟩
  · apply Game.mk_le_mk
    · intro gl' hgl'
      rcases forall2_mem_right hL gl' hgl' with ⟨gl, hgl, he⟩
      exact ⟨gl, hgl, he.2⟩
    · intro hr hhr
      rcases forall2_mem_left hR hr hhr with ⟨hr', hhr', he⟩
      exact ⟨hr', hhr', he.2⟩

/-! ## Counting and indexing lemmas -/

theorem countFalse_set_true (vis : List Bool) (u : Nat) (h : vis.getD u true = false) :
    countFalse (vis.set u true) + 1 = countFalse vis := by
  induction vis generalizing u with
  | nil => simp [List.getD] at h
  | cons b t ih =>
    cases u with
    | zero =>
      simp only [List.getD_cons_zero] at h
      subst h
      simp [countFalse, List.countP_cons]
    | succ n =>
      simp only [List.getD_cons_succ] at h
      have := ih n h
      simp only [List.set, countFalse, List.countP_cons] at this ⊢
      omega

theorem getD_lt_length {α : Type _} (l : List α) (u : Nat) (d : α) (h : l.getD u d ≠ d) :
    u < l.length := by
  by_contra hc
  rw [List.getD_eq_getElem?_getD, List.getElem?_eq_none (by omega)] at h
  exact h rfl

theorem getD_map_lt {α β : Type _} (f : α → β) (l : List α) (i : Nat) (d : β) (d' : α)
    (h : i < l.length) : (l.map f).getD i d = f (l.getD i d') := by
  induction l generalizing i with
  | nil => simp at h
  | cons a t ih =>
    cases i with
    | zero => rfl
    | succ n => simpa using ih n (by simpa using h)

theorem countP_range_getD {α : Type _} (l : List α) (Q : α → Bool) (d : α)
    (hd : Q d = false) :
    (List.range l.length).countP (fun i => Q (l.getD i d)) = l.countP Q := by
  induction l with
  | nil => simp
  | cons a t ih =>
    have : (List.range (a :: t).length) = 0 :: (List.range t.length).map Nat.succ := by
      simpa using List.range_succ_eq_map t.length
    rw [this]
    simp only [List.countP_cons, List.countP_map]
    have h2 : ((fun i => Q ((a :: t).getD i d)) ∘ Nat.succ) = fun i => Q (t.getD i d) := by
      funext i; rfl
    rw [h2, ih]
    simp [List.countP_cons]

theorem nodup_subset_length {α : Type _} [DecidableEq α] {l1 l2 : List α}
    (h1 : l1.Nodup) (hsub : l1 ⊆ l2) : l1.length ≤ l2.length := by
  calc l1.length = l1.toFinset.card := (List.toFinset_card_of_nodup h1).symm
    _ ≤ l2.toFinset.card := Finset.card_le_card (fun a ha => by
        rw [List.mem_toFinset] at ha ⊢; exact hsub ha)
    _ ≤ l2.length := l2.toFinset_card_le

theorem countP_lt_of_witness {α : Type _} {l : List α} {P Q : α → Bool}
    (h : ∀ a ∈ l, Q a = true → P a = true) (a0 : α) (ha0 : a0 ∈ l)
    (hP : P a0 = true) (hQ : Q a0 = false) : l.countP Q < l.countP P := by
  induction l with
  | nil => cases ha0
  | cons a t ih =>
    rcases List.mem_cons.1 ha0 with rfl | ha0
    · have hle : t.countP Q ≤ t.countP P :=
        List.countP_mono_left (fun x hx => h x (List.mem_cons_of_mem _ hx))
      simp [List.countP_cons, hP, hQ]
      omega
    · have hstep := ih (fun x hx hq => h x (List.mem_cons_of_mem _ hx) hq) ha0
      simp only [List.countP_cons]
      by_cases hqa : Q a = true
      · have hpa := h a (List.mem_cons_self _ _) hqa
        simp [hqa, hpa]
        omega
      · simp only [hqa]
        simp only [Bool.false_eq_true, if_false]
        omega

/-! ## Characterization of the BFS -/

/-- Mark a list of vertices visited. -/
def markList (vis : List Bool) (xs : List Nat) : List Bool :=
  xs.foldl (fun v u => v.set u true) vis

/-- On a duplicate-free neighbour list, the visit fold marks and enqueues
exactly the unvisited neighbours, in order. -/
theorem bfsVisit_eq_filter (l : List Nat) (hl : l.Nodup) :
    ∀ (vis : List Bool) (q : List Nat),
      l.foldl bfsVisitStep (vis, q) =
        (markList vis (l.filter (fun u => vis.getD u true = false)),
         q ++ l.filter (fun u => vis.getD u true = false)) := by
  induction l with
  | nil => intro vis q; simp [markList]
  | cons u t ih =>
    intro vis q
    have ht : t.Nodup := hl.of_cons
    have hu : u ∉ t := by
      intro hmem
      exact (List.nodup_cons.1 hl).1 hmem
    by_cases hvu : vis.getD u true = true
    · have hstep : bfsVisitStep (vis, q) u = (vis, q) := by
        unfold bfsVisitStep
        dsimp only
        rw [if_pos hvu]
      have hdec : (decide (vis.getD u true = false)) = false := by rw [hvu]; rfl
      have hfilter :
          (u :: t).filter (fun w => decide (vis.getD w true = false)) =
            t.filter (fun w => decide (vis.getD w true = false)) := by
        rw [List.filter_cons]
        simp only [hdec, Bool.false_eq_true, if_false]
      rw [List.foldl_cons, hstep]
      rw [ih ht vis q]
      rw [hfilter]
    · have hvu' : vis.getD u true = false := by
        cases hb : vis.getD u true
        · rfl
        · exact absurd hb hvu
      have hstep : bfsVisitStep (vis, q) u = (vis.set u true, q ++ [u]) := by
        unfold bfsVisitStep
        dsimp only
        rw [if_neg (by rw [hvu']; exact Bool.false_ne_true)]
      have hdec : (decide (vis.getD u true = false)) = true := by rw [hvu']; rfl
      have hfilter :
          (u :: t).filter (fun w => decide (vis.getD w true = false)) =
            u :: t.filter (fun w => decide (vis.getD w true = false)) := by
        rw [List.filter_cons]
        simp only [hdec, if_true]
      have hagree :
          t.filter (fun w => decide ((vis.set u true).getD w true = false)) =
            t.filter (fun w => decide (vis.getD w true = false)) := by
        apply List.filter_congr
        intro w hw
        have hne : u ≠ w := fun h => hu (h ▸ hw)
        rw [getD_set_ne vis u w true true hne]
      rw [List.foldl_cons, hstep, ih ht (vis.set u true) (q ++ [u]), hfilter, hagree]
      simp [markList]

theorem markList_length (xs : List Nat) (vis : List Bool) :
    (markList vis xs).length = vis.length := by
  induction xs generalizing vis with
  | nil => rfl
  | cons a t ih => simpa [markList, List.foldl_cons] using ih (vis.set a true)

/-- Adjacency lists are duplicate-free and in-range. -/
theorem adjacentTo_nodup (g : Graph) (v : Nat) : (g.adjacentTo v).Nodup :=
  (List.nodup_range g.size).filter _

theorem adjacentTo_lt (g : Graph) (v : Nat) : ∀ u ∈ g.adjacentTo v, u < g.size := by
  intro u hu
  have := List.mem_filter.1 hu
  exact List.mem_range.1 this.1

theorem markList_getD_mono (xs : List Nat) :
    ∀ (vis : List Bool) (u : Nat), vis.getD u true = true →
      (markList vis xs).getD u true = true := by
  induction xs with
  | nil => intro vis u h; exact h
  | cons a t ih =>
    intro vis u h
    unfold markList
    rw [List.foldl_cons]
    apply ih
    by_cases hau : a = u
    · subst hau
      by_cases hlen : a < vis.length
      · exact getD_set_self vis a true true hlen
      · rw [List.set_eq_of_length_le (by omega)]
        exact h
    · rw [getD_set_ne vis a u true true hau]
      exact h

theorem markList_marks (xs : List Nat) :
    ∀ (vis : List Bool) (u : Nat), u ∈ xs → u < vis.length →
      (markList vis xs).getD u true = true := by
  induction xs with
  | nil => intro vis u h; cases h
  | cons a t ih =>
    intro vis u h hlen
    unfold markList
    rw [List.foldl_cons]
    rcases List.mem_cons.1 h with rfl | h
    · apply markList_getD_mono
      exact getD_set_self vis u true true hlen
    · exact ih (vis.set a true) u h (by simpa using hlen)

theorem countFalse_markList (xs : List Nat) :
    ∀ (vis : List Bool), xs.Nodup → (∀ u ∈ xs, vis.getD u true = false) →
      countFalse (markList vis xs) + xs.length = countFalse vis := by
  induction xs with
  | nil => intro vis _ _; rfl
  | cons a t ih =>
    intro vis hnd hunv
    unfold markList
    rw [List.foldl_cons]
    have ha : vis.getD a true = false := hunv a (List.mem_cons_self _ _)
    have hrest : ∀ u ∈ t, (vis.set a true).getD u true = false := by
      intro u hu
      have hne : a ≠ u := fun h => (List.nodup_cons.1 hnd).1 (h ▸ hu)
      rw [getD_set_ne vis a u true true hne]
      exact hunv u (List.mem_cons_of_mem _ hu)
    have := ih (vis.set a true) (List.nodup_cons.1 hnd).2 hrest
    have hone := countFalse_set_true vis a ha
    unfold markList at this
    simp only [List.length_cons]
    omega

/-- The accumulated `vertices_to_take` of a BFS run extends `acc ++ q` by a
list of previously unvisited in-range vertices; the visited vector keeps its
length, never forgets, and the taken list has no duplicates. -/
theorem bfsLoop_spec (g : Graph) :
    ∀ (fuel : Nat) (vis : List Bool) (q acc : List Nat),
      countFalse vis + q.length + 1 ≤ fuel →
      (∀ u ∈ acc ++ q, vis.getD u true = true) →
      (acc ++ q).Nodup →
      ∃ rest,
        (bfsLoop g fuel vis q acc).1 = acc ++ q ++ rest ∧
        (bfsLoop g fuel vis q acc).2.length = vis.length ∧
        (∀ u, vis.getD u true = true → (bfsLoop g fuel vis q acc).2.getD u true = true) ∧
        (∀ u ∈ rest, vis.getD u true = false ∧ u < g.size) ∧
        (acc ++ q ++ rest).Nodup := by
  intro fuel
  induction fuel with
  | zero => intro vis q acc hf; omega
  | succ f ih =>
    intro vis q acc hf hmark hnd
    cases q with
    | nil =>
      refine ⟨[], by simp [bfsLoop], by simp [bfsLoop], ?_, by simp, by simpa using hnd⟩
      intro u hu
      simpa [bfsLoop] using hu
    | cons v q' =>
      set new := (g.adjacentTo v).filter (fun u => decide (vis.getD u true = false)) with hnew
      have hvisit : bfsVisit g v (vis, q') = (markList vis new, q' ++ new) := by
        unfold bfsVisit
        exact bfsVisit_eq_filter (g.adjacentTo v) (adjacentTo_nodup g v) vis q'
      have hunf : bfsLoop g (f + 1) vis (v :: q') acc =
          bfsLoop g f (bfsVisit g v (vis, q')).1 (bfsVisit g v (vis, q')).2 (acc ++ [v]) := rfl
      rw [hunf, hvisit]
      have hnewnodup : new.Nodup := (adjacentTo_nodup g v).filter _
      have hnewunv : ∀ u ∈ new, vis.getD u true = false := by
        intro u hu
        have := List.mem_filter.1 hu
        exact of_decide_eq_true this.2
      have hnewlt : ∀ u ∈ new, u < g.size := by
        intro u hu
        exact adjacentTo_lt g v u (List.mem_filter.1 hu).1
      have hnewlen : ∀ u ∈ new, u < vis.length := by
        intro u hu
        exact getD_lt_length vis u true (by rw [hnewunv u hu]; exact Bool.false_ne_true)
      have hcf : countFalse (markList vis new) + new.length = countFalse vis :=
        countFalse_markList new vis hnewnodup hnewunv
      have hmark' : ∀ u ∈ (acc ++ [v]) ++ (q' ++ new), (markList vis new).getD u true = true := by
        intro u hu
        rcases List.mem_append.1 hu with hu | hu
        · rcases List.mem_append.1 hu with hu | hu
          · exact markList_getD_mono new vis u (hmark u (List.mem_append.2 (Or.inl hu)))
          · rcases List.mem_singleton.1 hu with rfl
            exact markList_getD_mono new vis u
              (hmark u (List.mem_append.2 (Or.inr (List.mem_cons_self _ _))))
        · rcases List.mem_append.1 hu with hu | hu
          · exact markList_getD_mono new vis u
              (hmark u (List.mem_append.2 (Or.inr (List.mem_cons_of_mem _ hu))))
          · exact markList_marks new vis u hu (hnewlen u hu)
      have holdnodup : (acc ++ v :: q').Nodup := hnd
      have hdisj : ∀ u ∈ new, u ∉ acc ++ v :: q' := by
        intro u hu hmem
        have := hmark u hmem
        rw [hnewunv u hu] at this
        exact Bool.false_ne_true this
      have hnd' : ((acc ++ [v]) ++ (q' ++ new)).Nodup := by
        have h1 : (acc ++ [v]) ++ (q' ++ new) = (acc ++ v :: q') ++ new := by
          simp
        rw [h1, List.nodup_append]
        exact ⟨holdnodup, hnewnodup, fun u hu hu' => hdisj u hu' hu⟩
      have hfuel' : countFalse (markList vis new) + (q' ++ new).length + 1 ≤ f := by
        simp only [List.length_append]
        simp only [List.length_cons] at hf
        omega
      rcases ih (markList vis new) (q' ++ new) (acc ++ [v]) hfuel' hmark' hnd' with
        ⟨rest', hres, hlen, hmono, hrest', hndfin⟩
      refine ⟨new ++ rest', ?_, ?_, ?_, ?_, ?_⟩
      · rw [hres]; simp
      · rw [hlen, markList_length]
      · intro u hu
        exact hmono u (markList_getD_mono new vis u hu)
      · intro u hu
        rcases List.mem_append.1 hu with hu | hu
        · exact ⟨hnewunv u hu, hnewlt u hu⟩
        · have h1 := (hrest' u hu).1
          refine ⟨?_, (hrest' u hu).2⟩
          cases hb : vis.getD u true
          · rfl
          · rw [markList_getD_mono new vis u hb] at h1
            exact absurd h1 (by simp)
      · have h2 : acc ++ (v :: q') ++ (new ++ rest') = (acc ++ [v]) ++ (q' ++ new) ++ rest' := by
          simp
        rw [h2]
        exact hndfin

/-! ## The termination measure -/

/-- The `vertices_to_take` list of a BFS starts with the start vertex and
consists of distinct in-range vertices. -/
theorem bfs_vtt_spec (p : Position) (vis : List Bool) (v : Nat) (hv : v < p.graph.size) :
    ∃ rest,
      (bfsLoop p.graph (countFalse (vis.set v true) + 2) (vis.set v true) [v] []).1 =
        v :: rest ∧
      (∀ u ∈ rest, u < p.graph.size) ∧
      (v :: rest).Nodup := by
  have hv0 : (vis.set v true).getD v true = true := by
    by_cases hlen : v < vis.length
    · exact getD_set_self vis v true true hlen
    · rw [List.set_eq_of_length_le (by omega)]
      rw [List.getD_eq_getElem?_getD, List.getElem?_eq_none (by omega)]
      rfl
  have hmark : ∀ u ∈ ([] : List Nat) ++ [v], (vis.set v true).getD u true = true := by
    intro u hu
    rcases List.mem_singleton.1 (by simpa using hu) with rfl
    exact hv0
  have hnd : (([] : List Nat) ++ [v]).Nodup := by simp
  rcases bfsLoop_spec p.graph (countFalse (vis.set v true) + 2) (vis.set v true) [v] []
    (by rw [List.length_singleton]) hmark hnd with ⟨rest, hres, _, _, hrest, hndfin⟩
  refine ⟨rest, by simpa using hres, fun u hu => (hrest u hu).2, by simpa using hndfin⟩

/-- Components do not gain not-taken vertices: `mv c ≤ mv p`. -/
theorem mv_component_le (p : Position) (c : Position) (hc : c ∈ p.decompositions) :
    mv c ≤ mv p := by
  rcases decompositions_mem p c hc with ⟨vis, v, hv, _, _, rfl⟩
  rcases bfs_vtt_spec p vis v hv with ⟨rest, hvtt, hlt, hnd⟩
  unfold Position.bfs
  simp only
  rw [hvtt]
  unfold mv
  set vtt := v :: rest with hvttdef
  have hsize : (buildComponentGraph p vtt).size = vtt.length := buildComponentGraph_size p vtt
  simp only [colorAt, hsize]
  have hmap : (vtt.map fun u => p.vertices.getD u VertexColor.Taken).length = vtt.length := by
    simp
  rw [← hmap]
  rw [countP_range_getD (vtt.map fun u => p.vertices.getD u VertexColor.Taken)
    (fun col => decide (col ≠ VertexColor.Taken)) VertexColor.Taken (by rfl)]
  rw [List.countP_map]
  have hsub : ∀ u ∈ vtt, u < p.graph.size := by
    intro u hu
    rcases List.mem_cons.1 hu with rfl | hu
    · exact hv
    · exact hlt u hu
  rw [List.countP_eq_length_filter, List.countP_eq_length_filter]
  apply nodup_subset_length (hnd.filter _)
  intro u hu
  rw [List.mem_filter] at hu ⊢
  exact ⟨List.mem_range.2 (hsub u hu.1), hu.2⟩

/-- A move takes the chosen vertex and never revives a taken vertex. -/
theorem make_move_colors (p : Position) (own : VertexColor) (i : Nat)
    (hown : own ≠ VertexColor.Taken) (hi : i < p.vertices.length) :
    (p.make_move own i).vertices.getD i VertexColor.Taken = VertexColor.Taken ∧
    (∀ j, (p.make_move own i).vertices.getD j VertexColor.Taken ≠ VertexColor.Taken →
      p.vertices.getD j VertexColor.Taken ≠ VertexColor.Taken) := by
  unfold Position.make_move
  have main := foldl_inv (Position.make_move_step own i)
    (fun pos =>
      pos.vertices.getD i VertexColor.Taken = VertexColor.Taken ∧
      (∀ j, pos.vertices.getD j VertexColor.Taken ≠ VertexColor.Taken →
        p.vertices.getD j VertexColor.Taken ≠ VertexColor.Taken))
    (p.graph.adjacentTo i)
    { p with vertices := p.vertices.set i VertexColor.Taken }
    ?_ ?_
  · exact main
  · constructor
    · exact getD_set_self p.vertices i VertexColor.Taken VertexColor.Taken hi
    · intro j hj
      by_cases hij : i = j
      · subst hij
        rw [getD_set_self p.vertices i VertexColor.Taken VertexColor.Taken hi] at hj
        exact absurd rfl hj
      · rwa [getD_set_ne p.vertices i j VertexColor.Taken VertexColor.Taken hij] at hj
  · intro pos a _ hpos
    unfold Position.make_move_step
    dsimp only
    split
    · rename_i hne
      split
      · rename_i hcol
        constructor
        · rw [getD_set_ne pos.vertices a i own VertexColor.Taken (fun h => hne (h ▸ rfl))]
          exact hpos.1
        · intro j hj
          by_cases haj : a = j
          · subst haj
            apply hpos.2
            rcases hcol with hcol | hcol <;> rw [hcol] <;> simp_all
          · rw [getD_set_ne pos.vertices a j own VertexColor.Taken haj] at hj
            exact hpos.2 j hj
      · constructor
        · rw [getD_set_ne pos.vertices a i VertexColor.Taken VertexColor.Taken
            (fun h => hne (h ▸ rfl))]
          exact hpos.1
        · intro j hj
          by_cases haj : a = j
          · subst haj
            rw [getD_set_d pos.vertices a VertexColor.Taken] at hj
            exact absurd rfl hj
          · rw [getD_set_ne pos.vertices a j VertexColor.Taken VertexColor.Taken haj] at hj
            exact hpos.2 j hj
    · exact hpos

/-- A legal move strictly decreases the number of not-taken vertices. -/
theorem mv_move_lt (p : Position) (own : VertexColor) (q : Position)
    (hwf : p.vertices.length = p.graph.size)
    (hown : own ≠ VertexColor.Taken) (hq : q ∈ p.moves_for own) : mv q < mv p := by
  rcases moves_for_mem p own q hq with ⟨i, hi, hcol, rfl⟩
  have hcolors := make_move_colors p own i hown hi
  have hsize : (p.make_move own i).graph.size = p.graph.size := (make_move_shape p own i).2
  unfold mv colorAt
  rw [hsize]
  refine countP_lt_of_witness ?_ i ?_ ?_ ?_
  · intro j _ hj
    rw [decide_eq_true_iff] at hj ⊢
    exact hcolors.2 j hj
  · exact List.mem_range.2 (by omega)
  · rw [decide_eq_true_iff]
    rcases hcol with hcol | hcol <;> rw [hcol] <;> simp [hown]
  · rw [decide_eq_false_iff_not]
    intro hcon
    exact hcon hcolors.1

theorem decomp_wf (p c : Position) (hc : c ∈ p.decompositions) :
    c.vertices.length = c.graph.size := by
  rcases decompositions_mem p c hc with ⟨vis, v, _, _, _, rfl⟩
  exact bfs_wf p vis v

/-- Moves inside a component of the decomposition strictly decrease the
measure of the whole position. -/
theorem mv_comp_move_lt (p c q : Position) (hc : c ∈ p.decompositions)
    (own : VertexColor) (hown : own ≠ VertexColor.Taken) (hq : q ∈ c.moves_for own) :
    mv q < mv p :=
  Nat.lt_of_lt_of_le (mv_move_lt c own q (decomp_wf p c hc) hown hq) (mv_component_le p c hc)

/-! ## Fuel-irrelevance of the driver -/

theorem foldl_congr {α β : Type _} (f f' : β → α → β) (l : List α) :
    ∀ (b : β), (∀ s a, a ∈ l → f s a = f' s a) → l.foldl f b = l.foldl f' b := by
  induction l with
  | nil => intro b _; rfl
  | cons a t ih =>
    intro b h
    rw [List.foldl_cons, List.foldl_cons, h b a (List.mem_cons_self _ _)]
    exact ih (f' b a) (fun s a' ha' => h s a' (List.mem_cons_of_mem _ ha'))

theorem mapThread_congr (f f' : Position → TT → Game × TT) (ps : List Position) (t : TT)
    (h : ∀ x ∈ ps, ∀ t', f x t' = f' x t') : mapThread f ps t = mapThread f' ps t := by
  unfold mapThread
  apply foldl_congr
  intro s a ha
  unfold mapThreadStep
  rw [h a ha s.2]

theorem compStep_congr (f f' : Position → TT → Game × TT) (s : Game × TT) (c : Position)
    (h : ∀ m, (m ∈ c.left_moves ∨ m ∈ c.right_moves) → ∀ t', f m t' = f' m t') :
    compStep f s c = compStep f' s c := by
  unfold compStep
  cases rwGet s.2 c with
  | some cf => rfl
  | none =>
    simp only
    rw [mapThread_congr f f' c.left_moves s.2 (fun x hx t' => h x (Or.inl hx) t')]
    rw [mapThread_congr f f' c.right_moves _ (fun x hx t' => h x (Or.inr hx) t')]

theorem canonicalFormFuel_congr :
    ∀ (n : Nat) (p : Position) (t : TT) (f1 f2 : Nat),
      mv p ≤ n → mv p + 1 ≤ f1 → mv p + 1 ≤ f2 →
      canonicalFormFuel f1 p t = canonicalFormFuel f2 p t := by
  intro n
  induction n with
  | zero =>
    intro p t f1 f2 hn h1 h2
    obtain ⟨a, rfl⟩ : ∃ a, f1 = a + 1 := ⟨f1 - 1, by omega⟩
    obtain ⟨b, rfl⟩ : ∃ b, f2 = b + 1 := ⟨f2 - 1, by omega⟩
    show (match rwGet t p with
      | some g => (g, t)
      | none =>
        let s := p.decompositions.foldl (compStep (canonicalFormFuel a)) (Game.zero, t)
        (s.1, rwInsert s.2 p s.1)) = _
    cases hget : rwGet t p with
    | some g => simp [canonicalFormFuel, hget]
    | none =>
      simp only [canonicalFormFuel, hget]
      have hfold : p.decompositions.foldl (compStep (canonicalFormFuel a)) (Game.zero, t) =
          p.decompositions.foldl (compStep (canonicalFormFuel b)) (Game.zero, t) := by
        apply foldl_congr
        intro s c hcmem
        apply compStep_congr
        intro m hm t'
        rcases hm with hm | hm
        · exact absurd (mv_comp_move_lt p c m hcmem VertexColor.TintLeft (by simp) hm)
            (by omega)
        · exact absurd (mv_comp_move_lt p c m hcmem VertexColor.TintRight (by simp) hm)
            (by omega)
      rw [hfold]
  | succ n ih =>
    intro p t f1 f2 hn h1 h2
    obtain ⟨a, rfl⟩ : ∃ a, f1 = a + 1 := ⟨f1 - 1, by omega⟩
    obtain ⟨b, rfl⟩ : ∃ b, f2 = b + 1 := ⟨f2 - 1, by omega⟩
    cases hget : rwGet t p with
    | some g => simp [canonicalFormFuel, hget]
    | none =>
      simp only [canonicalFormFuel, hget]
      have hfold : p.decompositions.foldl (compStep (canonicalFormFuel a)) (Game.zero, t) =
          p.decompositions.foldl (compStep (canonicalFormFuel b)) (Game.zero, t) := by
        apply foldl_congr
        intro s c hcmem
        apply compStep_congr
        intro m hm t'
        have hlt : mv m < mv p := by
          rcases hm with hm | hm
          · exact mv_comp_move_lt p c m hcmem VertexColor.TintLeft (by simp) hm
          · exact mv_comp_move_lt p c m hcmem VertexColor.TintRight (by simp) hm
        calc canonicalFormFuel a m t'
            = canonicalFormFuel (mv m + 1) m t' :=
              ih m t' a (mv m + 1) (by omega) (by omega) (by omega)
          _ = canonicalFormFuel b m t' :=
              (ih m t' b (mv m + 1) (by omega) (by omega) (by omega)).symm
      rw [hfold]

/-! ## Claim C1: the structure of the memoized driver -/

/-- C1: `canonical_form(P, T)` returns the cached form when present;
otherwise it folds over `decompositions(P)`, per component using the cached
form or canonicalizing the `Moves` whose options are the recursively
computed canonical forms of the component's `left_moves` and `right_moves`
(inserting the component form into the table), sums the component forms,
and inserts the sum under `P`. -/
theorem c1_driver_structure (p : Position) (t : TT) :
    canonical_form p t =
      match rwGet t p with
      | some g => (g, t)
      | none =>
        ((p.decompositions.foldl (compStep canonical_form) (Game.zero, t)).1,
          rwInsert (p.decompositions.foldl (compStep canonical_form) (Game.zero, t)).2 p
            (p.decompositions.foldl (compStep canonical_form) (Game.zero, t)).1) := by
  show canonicalFormFuel (mv p + 1) p t = _
  cases hget : rwGet t p with
  | some g => simp [canonicalFormFuel, hget]
  | none =>
    simp only [canonicalFormFuel, hget]
    have hfold : p.decompositions.foldl (compStep (canonicalFormFuel (mv p))) (Game.zero, t) =
        p.decompositions.foldl (compStep canonical_form) (Game.zero, t) := by
      apply foldl_congr
      intro s c hcmem
      apply compStep_congr
      intro m hm t'
      have hlt : mv m < mv p := by
        rcases hm with hm | hm
        · exact mv_comp_move_lt p c m hcmem VertexColor.TintLeft (by simp) hm
        · exact mv_comp_move_lt p c m hcmem VertexColor.TintRight (by simp) hm
      exact canonicalFormFuel_congr (mv m) m t' (mv p) (mv m + 1) (Nat.le_refl _)
        (by omega) (by omega)
    rw [hfold]

/-! ## Claim C6: the docstring example -/

/-- The docstring example position: triangle-free graph on three vertices
with the single edge `{1, 2}` and tints `(TintLeft, TintRight, TintLeft)`. -/
def snortDoctest : Position :=
  { vertices := [VertexColor.TintLeft, VertexColor.TintRight, VertexColor.TintLeft],
    graph := (Graph.empty 3).connect 1 2 true }

/-- Modelled from the spec: printing is not part of the reviewed tree; per
the spec, printing follows standard CGT notation on canonical values, so the
form printed `1*` is the game value `1 + *` with `1 = {0 | }` and
`* = {0 | 0}`. -/
def oneStar : Game :=
  Game.add (Game.mk [Game.zero] []) (Game.mk [Game.zero] [Game.zero])

/-- C6: on the docstring example, Left has 2 moves, Right has 1 move, and
the canonical form is the game value `1*`. -/
theorem c6_doctest :
    Position.with_colors
        [VertexColor.TintLeft, VertexColor.TintRight, VertexColor.TintLeft]
        ((Graph.empty 3).connect 1 2 true) = some snortDoctest ∧
    snortDoctest.left_moves.length = 2 ∧
    snortDoctest.right_moves.length = 1 ∧
    Game.equivb (canonical_form snortDoctest rwNew).1 oneStar = true := by
  decide

/-! ## Characterization of the rebuilt component graph -/

theorem getD_replicate {α : Type} (k i : Nat) (c : α) :
    (List.replicate k c).getD i c = c := by
  induction k generalizing i with
  | zero => simp [List.getD]
  | succ n ih =>
    cases i with
    | zero => rfl
    | succ m => simpa [List.replicate] using ih m

theorem Graph.are_adjacent_symm (g : Graph) (u v : Nat) :
    g.are_adjacent u v = g.are_adjacent v u := by
  unfold Graph.are_adjacent Graph.cell
  rw [Nat.max_comm, Nat.min_comm]

theorem Graph.are_adjacent_empty (n x y : Nat) :
    (Graph.empty n).are_adjacent x y = false := by
  unfold Graph.empty Graph.are_adjacent
  by_cases h : Graph.cell n x y < n * n
  · simp only []
    rw [List.getD_eq_getElem?_getD]
    rw [List.getElem?_replicate]
    simp [h]
  · simp only []
    rw [List.getD_eq_getElem?_getD, List.getElem?_eq_none (by simp; omega)]
    rfl

theorem Graph.connect_true_mono (g : Graph) (a b x y : Nat)
    (h : g.are_adjacent x y = true) : (g.connect a b true).are_adjacent x y = true := by
  unfold Graph.are_adjacent at h ⊢
  unfold Graph.connect
  dsimp only
  by_cases hc : Graph.cell g.size a b = Graph.cell g.size x y
  · rw [← hc]
    by_cases hlen : Graph.cell g.size a b < g.adjacency_matrix.length
    · rw [getD_set_self _ _ _ _ hlen]
    · rw [List.set_eq_of_length_le (by omega), hc]
      exact h
  · rw [getD_set_ne _ _ _ _ _ hc]
    exact h

theorem Graph.connect_length (g : Graph) (a b : Nat) (c : Bool) :
    (g.connect a b c).adjacency_matrix.length = g.adjacency_matrix.length := by
  simp [Graph.connect]

theorem cell_lt (n a b : Nat) (ha : a < n) (hb : b < n) : Graph.cell n a b < n * n := by
  unfold Graph.cell
  have h1 : max a b < n := by omega
  have h2 : min a b < n := by omega
  calc n * max a b + min a b < n * max a b + n := by omega
    _ = n * (max a b + 1) := by ring
    _ ≤ n * n := Nat.mul_le_mul_left n (by omega)

theorem Graph.connect_self_true (g : Graph) (a b : Nat)
    (hlen : g.adjacency_matrix.length = g.size * g.size)
    (ha : a < g.size) (hb : b < g.size) :
    (g.connect a b true).are_adjacent a b = true := by
  unfold Graph.are_adjacent Graph.connect
  simp only []
  exact getD_set_self _ _ _ _ (by rw [hlen]; exact cell_lt g.size a b ha hb)

theorem cell_eq_cases (n x y a b : Nat) (ha : a < n) (hb : b < n)
    (h : Graph.cell n x y = Graph.cell n a b) :
    (x = a ∧ y = b) ∨ (x = b ∧ y = a) := by
  unfold Graph.cell at h
  have hn : 0 < n := by omega
  have hmaxlt : max x y < n := by
    by_contra hc
    have h1 : n * n ≤ n * max x y := Nat.mul_le_mul_left n (by omega)
    have h2 : n * max a b + min a b < n * n := cell_lt n a b ha hb
    unfold Graph.cell at h2
    omega
  have hminlt : min x y < n := by omega
  have := matrix_index_inj hminlt (show min a b < n by omega) h
  rcases Nat.le_total x y with hxy | hxy <;> rcases Nat.le_total a b with hab | hab <;>
    rw [Nat.max_comm, Nat.min_comm] at * <;> omega

theorem Graph.connect_true_cases (g : Graph) (a b x y : Nat)
    (h : (g.connect a b true).are_adjacent x y = true) :
    g.are_adjacent x y = true ∨ Graph.cell g.size x y = Graph.cell g.size a b := by
  by_cases hc : Graph.cell g.size x y = Graph.cell g.size a b
  · exact Or.inr hc
  · left
    unfold Graph.are_adjacent at h ⊢
    unfold Graph.connect at h
    dsimp only at h
    rwa [getD_set_ne _ _ _ _ _ (fun hh => hc hh.symm)] at h

theorem findIdx?_some_spec {α : Type _} (f : α → Bool) (l : List α) (i : Nat) (d : α)
    (h : l.findIdx? f = some i) : i < l.length ∧ f (l.getD i d) = true := by
  rw [List.findIdx?_eq_some_iff_getElem] at h
  rcases h with ⟨hi, hp, _⟩
  refine ⟨hi, ?_⟩
  rw [List.getD_eq_getElem?_getD, List.getElem?_eq_getElem hi]
  exact hp

theorem findIdx?_nodup_eq (vtt : List Nat) (hnd : vtt.Nodup) (j u : Nat)
    (hj : j < vtt.length) (hu : vtt.getD j 0 = u) :
    vtt.findIdx? (fun x => x = u) = some j := by
  rw [List.findIdx?_eq_some_iff_getElem]
  rw [List.getD_eq_getElem?_getD, List.getElem?_eq_getElem hj] at hu
  simp only [Option.getD_some] at hu
  refine ⟨hj, by simpa using hu, ?_⟩
  intro j' hj'
  rw [decide_eq_true_iff]
  intro hc
  have heq : vtt.get ⟨j', Nat.lt_trans hj' hj⟩ = vtt.get ⟨j, hj⟩ := by
    simp only [List.get_eq_getElem]
    rw [hc, hu]
  have hfin := (List.Nodup.get_inj_iff hnd).1 heq
  have : j' = j := by
    have := Fin.mk.injEq j' (Nat.lt_trans hj' hj) j hj ▸ hfin
    exact Fin.mk.inj_iff.1 hfin
  omega

theorem mem_enum_spec {α : Type _} (l : List α) (d : α) (x : Nat × α) (h : x ∈ l.enum) :
    x.1 < l.length ∧ l.getD x.1 d = x.2 := by
  rcases x with ⟨i, a⟩
  rw [List.mem_enum_iff_getElem?] at h
  have hi : i < l.length := by
    by_contra hc
    rw [List.getElem?_eq_none (by omega)] at h
    cases h
  rw [List.getElem?_eq_getElem hi] at h
  cases h
  exact ⟨hi, by rw [List.getD_eq_getElem?_getD, List.getElem?_eq_getElem hi]; rfl⟩

theorem enum_mem_of_lt {α : Type _} (l : List α) (d : α) (i : Nat) (hi : i < l.length) :
    (i, l.getD i d) ∈ l.enum := by
  rw [List.mem_enum_iff_getElem?, List.getElem?_eq_getElem hi]
  rw [List.getD_eq_getElem?_getD, List.getElem?_eq_getElem hi]
  rfl

theorem bcgInner_length (vtt : List Nat) (i' : Nat) (g : Graph) (u : Nat) :
    (bcgInner vtt i' g u).adjacency_matrix.length = g.adjacency_matrix.length := by
  unfold bcgInner
  cases vtt.findIdx? (fun x => x = u) with
  | none => rfl
  | some k => exact Graph.connect_length g i' k true

theorem bcgInner_fold_mono (vtt : List Nat) (i' : Nat) (l : List Nat) (g : Graph)
    (x y : Nat) (h : g.are_adjacent x y = true) :
    (l.foldl (bcgInner vtt i') g).are_adjacent x y = true := by
  apply foldl_inv (bcgInner vtt i') (fun (g' : Graph) => g'.are_adjacent x y = true) l g h
  intro g' u _ hg'
  unfold bcgInner
  cases vtt.findIdx? (fun w => w = u) with
  | none => exact hg'
  | some k => exact Graph.connect_true_mono g' i' k x y hg'

theorem bcgOuter_fold_mono (p : Position) (vtt : List Nat) (es : List (Nat × Nat)) (g : Graph)
    (x y : Nat) (h : g.are_adjacent x y = true) :
    (es.foldl (bcgOuter p vtt) g).are_adjacent x y = true := by
  apply foldl_inv (bcgOuter p vtt) (fun (g' : Graph) => g'.are_adjacent x y = true) es g h
  intro g' pr _ hg'
  exact bcgInner_fold_mono vtt pr.1 _ g' x y hg'

theorem bcgOuter_wf (p : Position) (vtt : List Nat) (g : Graph) (pr : Nat × Nat)
    (h : g.size = vtt.length ∧ g.adjacency_matrix.length = vtt.length * vtt.length) :
    (bcgOuter p vtt g pr).size = vtt.length ∧
    (bcgOuter p vtt g pr).adjacency_matrix.length = vtt.length * vtt.length := by
  constructor
  · rw [bcgOuter_size]; exact h.1
  · unfold bcgOuter
    refine foldl_inv (bcgInner vtt pr.1)
      (fun (g' : Graph) => g'.adjacency_matrix.length = vtt.length * vtt.length) _ g h.2 ?_
    intro g' u _ hg'
    rw [bcgInner_length]; exact hg'

theorem bcgInner_complete (p : Position) (vtt : List Nat) (j : Nat) (old_u : Nat)
    (hfind : vtt.findIdx? (fun x => x = old_u) = some j) (hj : j < vtt.length) (i : Nat)
    (hi : i < vtt.length) :
    ∀ (l : List Nat) (g : Graph),
      g.size = vtt.length → g.adjacency_matrix.length = vtt.length * vtt.length →
      old_u ∈ l → (l.foldl (bcgInner vtt i) g).are_adjacent i j = true := by
  intro l
  induction l with
  | nil => intro g _ _ hmem; cases hmem
  | cons a t ih =>
    intro g hsz hlen hmem
    rcases List.mem_cons.1 hmem with rfl | hmem
    · rw [List.foldl_cons]
      apply bcgInner_fold_mono
      unfold bcgInner
      rw [hfind]
      apply Graph.connect_self_true
      · rw [hsz, hlen]
      · rw [hsz]; exact hi
      · rw [hsz]; exact hj
    · rw [List.foldl_cons]
      refine ih (bcgInner vtt i g a) ?_ ?_ hmem
      · unfold bcgInner
        cases vtt.findIdx? (fun w => w = a) with
        | none => exact hsz
        | some k => rw [Graph.size_connect]; exact hsz
      · rw [bcgInner_length]; exact hlen

theorem bcgOuter_complete (p : Position) (vtt : List Nat) (j : Nat) (old_u : Nat)
    (hfind : vtt.findIdx? (fun x => x = old_u) = some j) (hj : j < vtt.length) :
    ∀ (es : List (Nat × Nat)) (g : Graph),
      g.size = vtt.length ∧ g.adjacency_matrix.length = vtt.length * vtt.length →
      ∀ (i old_v : Nat), (i, old_v) ∈ es → i < vtt.length →
        old_u ∈ p.graph.adjacentTo old_v →
        (es.foldl (bcgOuter p vtt) g).are_adjacent i j = true := by
  intro es
  induction es with
  | nil => intro g _ i old_v hmem; cases hmem
  | cons pr t ih =>
    intro g hwf i old_v hmem hi hadjmem
    rcases List.mem_cons.1 hmem with rfl | hmem
    · rw [List.foldl_cons]
      apply bcgOuter_fold_mono
      exact bcgInner_complete p vtt j old_u hfind hj i hi _ g hwf.1 hwf.2 hadjmem
    · rw [List.foldl_cons]
      exact ih (bcgOuter p vtt g pr) (bcgOuter_wf p vtt g pr hwf) i old_v hmem hi hadjmem

/-- Soundness and completeness of the rebuilt component graph: its edges are
exactly the original edges between taken vertices, transported along the
index list. -/
theorem bcg_are_adjacent (p : Position) (vtt : List Nat) (hnd : vtt.Nodup)
    (hlt : ∀ u ∈ vtt, u < p.graph.size) (i j : Nat) :
    (buildComponentGraph p vtt).are_adjacent i j = true ↔
      (i < vtt.length ∧ j < vtt.length ∧
        p.graph.are_adjacent (vtt.getD i 0) (vtt.getD j 0) = true) := by
  constructor
  · -- soundness: fold invariant
    intro h
    have main := foldl_inv (bcgOuter p vtt)
      (fun (g : Graph) =>
        g.size = vtt.length ∧
        g.adjacency_matrix.length = vtt.length * vtt.length ∧
        ∀ x y, g.are_adjacent x y = true →
          (x < vtt.length ∧ y < vtt.length ∧
            p.graph.are_adjacent (vtt.getD x 0) (vtt.getD y 0) = true))
      vtt.enum (Graph.empty vtt.length)
      ⟨rfl, by simp [Graph.empty], fun x y hxy => by
        rw [Graph.are_adjacent_empty] at hxy; cases hxy⟩
      ?_
    · exact main.2.2 i j h
    · intro g pair hpair hg
      unfold bcgOuter
      have inner := foldl_inv (bcgInner vtt pair.1)
        (fun (g' : Graph) =>
          g'.size = vtt.length ∧
          g'.adjacency_matrix.length = vtt.length * vtt.length ∧
          ∀ x y, g'.are_adjacent x y = true →
            (x < vtt.length ∧ y < vtt.length ∧
              p.graph.are_adjacent (vtt.getD x 0) (vtt.getD y 0) = true))
        (p.graph.adjacentTo pair.2) g hg ?_
      · exact inner
      · intro g' old_u hold hg'
        unfold bcgInner
        cases hfind : vtt.findIdx? (fun x => x = old_u) with
        | none => exact hg'
        | some new_u =>
          have hspec := findIdx?_some_spec (fun x => x = old_u) vtt new_u 0 hfind
          have hvttnew : vtt.getD new_u 0 = old_u := of_decide_eq_true hspec.2
          have hpairmem := mem_enum_spec vtt 0 pair hpair
          refine ⟨by rw [Graph.size_connect]; exact hg'.1,
            by rw [Graph.connect_length]; exact hg'.2.1, ?_⟩
          intro x y hxy
          rcases Graph.connect_true_cases g' pair.1 new_u x y hxy with hxy | hcell
          · exact hg'.2.2 x y hxy
          · rw [hg'.1] at hcell
            have hadj : p.graph.are_adjacent (vtt.getD pair.1 0) (vtt.getD new_u 0) = true := by
              rw [hpairmem.2, hvttnew]
              exact (List.mem_filter.1 hold).2
            rcases cell_eq_cases vtt.length x y pair.1 new_u hpairmem.1 hspec.1 hcell with
              ⟨rfl, rfl⟩ | ⟨rfl, rfl⟩
            · exact ⟨hpairmem.1, hspec.1, hadj⟩
            · refine ⟨hspec.1, hpairmem.1, ?_⟩
              rw [Graph.are_adjacent_symm]
              exact hadj
  · -- completeness
    rintro ⟨hi, hj, hadj⟩
    have hmemj : vtt.getD j 0 ∈ vtt := by
      rw [List.getD_eq_getElem?_getD, List.getElem?_eq_getElem hj]
      exact List.getElem_mem hj
    have hfind : vtt.findIdx? (fun x => x = vtt.getD j 0) = some j :=
      findIdx?_nodup_eq vtt hnd j (vtt.getD j 0) hj rfl
    have hadjmem : vtt.getD j 0 ∈ p.graph.adjacentTo (vtt.getD i 0) := by
      unfold Graph.adjacentTo
      rw [List.mem_filter]
      exact ⟨List.mem_range.2 (hlt _ hmemj), by simpa using hadj⟩
    have hpairmem : (i, vtt.getD i 0) ∈ vtt.enum := enum_mem_of_lt vtt 0 i hi
    exact bcgOuter_complete p vtt j (vtt.getD j 0) hfind hj vtt.enum (Graph.empty vtt.length)
      (by simp [Graph.empty]) i (vtt.getD i 0) hpairmem hi hadjmem

theorem list_ext_getD {α : Type _} (d : α) :
    ∀ (l1 l2 : List α), l1.length = l2.length →
      (∀ i, i < l1.length → l1.getD i d = l2.getD i d) → l1 = l2 := by
  intro l1
  induction l1 with
  | nil => intro l2 hlen _; cases l2 with | nil => rfl | cons b t => simp at hlen
  | cons a t ih =>
    intro l2 hlen hp
    cases l2 with
    | nil => simp at hlen
    | cons b t2 =>
      have h0 := hp 0 (by simp)
      simp only [List.getD_cons_zero] at h0
      subst h0
      congr 1
      refine ih t2 (by simpa using hlen) ?_
      intro i hi
      have := hp (i + 1) (by simpa using hi)
      simpa using this

theorem map_getD_range {α : Type _} (d : α) (l : List α) :
    (List.range l.length).map (fun i => l.getD i d) = l := by
  induction l with
  | nil => rfl
  | cons a t ih =>
    have hr : List.range (a :: t).length = 0 :: (List.range t.length).map Nat.succ := by
      simpa using List.range_succ_eq_map t.length
    rw [hr]
    simp only [List.map_cons, List.map_map, List.getD_cons_zero]
    have hcomp : ((fun i => (a :: t).getD i d) ∘ Nat.succ) = fun i => t.getD i d := by
      funext i; rfl
    rw [hcomp, ih]

/-- Cells above the diagonal (in the normalized encoding) are never written:
the component graph only stores normalized cells. -/
theorem bcg_offdiag_false (p : Position) (vtt : List Nat) :
    ∀ a b, b < vtt.length → a < b →
      (buildComponentGraph p vtt).adjacency_matrix.getD (vtt.length * a + b) false = false := by
  set n := vtt.length with hn
  have main := foldl_inv (bcgOuter p vtt)
    (fun (g : Graph) =>
      g.size = n ∧ g.adjacency_matrix.length = n * n ∧
      ∀ a b, b < n → a < b → g.adjacency_matrix.getD (n * a + b) false = false)
    vtt.enum (Graph.empty n)
    ⟨rfl, by simp [Graph.empty], fun a b hb hab => by
      unfold Graph.empty
      by_cases hidx : n * a + b < n * n
      · rw [List.getD_eq_getElem?_getD, List.getElem?_replicate]
        simp [hidx]
      · rw [List.getD_eq_getElem?_getD, List.getElem?_eq_none (by simp; omega)]
        rfl⟩
    ?_
  · exact fun a b hb hab => main.2.2 a b hb hab
  · intro g pr _ hg
    unfold bcgOuter
    refine foldl_inv (bcgInner vtt pr.1)
      (fun (g' : Graph) =>
        g'.size = n ∧ g'.adjacency_matrix.length = n * n ∧
        ∀ a b, b < n → a < b → g'.adjacency_matrix.getD (n * a + b) false = false)
      _ g hg ?_
    intro g' u _ hg'
    unfold bcgInner
    cases hfind : vtt.findIdx? (fun w => w = u) with
    | none => exact hg'
    | some k =>
      refine ⟨by rw [Graph.size_connect]; exact hg'.1,
        by rw [Graph.connect_length]; exact hg'.2.1, ?_⟩
      intro a b hb hab
      unfold Graph.connect
      dsimp only
      rw [hg'.1]
      by_cases hmax : max pr.1 k < n
      · have hne : Graph.cell n pr.1 k ≠ n * a + b := by
          unfold Graph.cell
          intro hc
          have hminlt : min pr.1 k < n := by omega
          have := matrix_index_inj hminlt (by omega : b < n) hc
          omega
        rw [getD_set_ne _ _ _ _ _ hne]
        exact hg'.2.2 a b hb hab
      · have hoob : g'.adjacency_matrix.length ≤ Graph.cell n pr.1 k := by
          rw [hg'.2.1]
          unfold Graph.cell
          calc n * n ≤ n * max pr.1 k := Nat.mul_le_mul_left n (by omega)
            _ ≤ n * max pr.1 k + min pr.1 k := by omega
        rw [List.set_eq_of_length_le hoob]
        exact hg'.2.2 a b hb hab

theorem bcg_wf (p : Position) (vtt : List Nat) :
    (buildComponentGraph p vtt).size = vtt.length ∧
    (buildComponentGraph p vtt).adjacency_matrix.length = vtt.length * vtt.length := by
  unfold buildComponentGraph
  refine foldl_inv (bcgOuter p vtt)
    (fun (g : Graph) =>
      g.size = vtt.length ∧ g.adjacency_matrix.length = vtt.length * vtt.length)
    vtt.enum (Graph.empty vtt.length) ⟨rfl, by simp [Graph.empty]⟩ ?_
  intro g pr _ hg
  exact bcgOuter_wf p vtt g pr hg

theorem range_getD (n i : Nat) (hi : i < n) : (List.range n).getD i 0 = i := by
  rw [List.getD_eq_getElem?_getD,
    List.getElem?_eq_getElem (by simpa using hi)]
  simp

theorem Graph.ext_of (g1 g2 : Graph) (hs : g1.size = g2.size)
    (hm : g1.adjacency_matrix = g2.adjacency_matrix) : g1 = g2 := by
  cases g1
  cases g2
  rw [Graph.mk.injEq]
  exact ⟨hs, hm⟩

/-- Rebuilding a component graph along the identity index list reproduces
the graph, provided the graph stores only sound normalized cells — which
every BFS-rebuilt component graph does. -/
theorem build_identity (c : Position) (n : Nat) (hn : c.graph.size = n)
    (hlen : c.graph.adjacency_matrix.length = n * n)
    (hoffdiag : ∀ a b, b < n → a < b →
      c.graph.adjacency_matrix.getD (n * a + b) false = false)
    (hsound : ∀ x y, c.graph.are_adjacent x y = true → x < n ∧ y < n) :
    buildComponentGraph c (List.range n) = c.graph := by
  have hrn : (List.range n).length = n := by simp
  have hbwf := bcg_wf c (List.range n)
  have hbsize : (buildComponentGraph c (List.range n)).size = n := by
    rw [hbwf.1, hrn]
  have hbmatlen : (buildComponentGraph c (List.range n)).adjacency_matrix.length = n * n := by
    rw [hbwf.2, hrn]
  have hadj := bcg_are_adjacent c (List.range n) (List.nodup_range n)
    (fun u hu => by rw [hn]; exact List.mem_range.1 hu)
  apply Graph.ext_of
  · rw [hbsize, hn]
  · apply list_ext_getD false _ _ (by rw [hbmatlen, hlen])
    intro k hk
    rw [hbmatlen] at hk
    have hnpos : 0 < n := by
      by_contra hc
      have hzero : n = 0 := by omega
      subst hzero
      simp at hk
    set q := k / n with hq
    set r := k % n with hr
    have hkqr : n * q + r = k := Nat.div_add_mod k n
    have hrlt : r < n := Nat.mod_lt k hnpos
    have hqlt : q < n := by
      by_contra hc
      have : n * n ≤ n * q := Nat.mul_le_mul_left n (by omega)
      omega
    by_cases hcase : r ≤ q
    · -- normalized cell `cell n r q = k`: compare through `are_adjacent r q`
      have hcell : Graph.cell n r q = k := by
        unfold Graph.cell
        rw [Nat.max_eq_right hcase, Nat.min_eq_left hcase]
        exact hkqr
      have hL : (buildComponentGraph c (List.range n)).adjacency_matrix.getD k false =
          (buildComponentGraph c (List.range n)).are_adjacent r q := by
        unfold Graph.are_adjacent
        rw [hbsize, hcell]
      have hR : c.graph.adjacency_matrix.getD k false = c.graph.are_adjacent r q := by
        unfold Graph.are_adjacent
        rw [hn, hcell]
      rw [hL, hR]
      cases hcg : c.graph.are_adjacent r q with
      | true =>
        rw [(hadj r q).2 ⟨by omega, by omega, ?_⟩]
        rw [range_getD n r hrlt, range_getD n q hqlt]
        exact hcg
      | false =>
        cases hb : (buildComponentGraph c (List.range n)).are_adjacent r q with
        | false => rfl
        | true =>
          have := (hadj r q).1 hb
          rw [range_getD n r hrlt, range_getD n q hqlt] at this
          rw [this.2.2] at hcg
          cases hcg
    · -- off-diagonal cell: false on both sides
      have hqr : q < r := by omega
      have hL := bcg_offdiag_false c (List.range n) q r (by rw [hrn]; exact hrlt)
        (by omega)
      rw [hrn] at hL
      rw [hkqr] at hL
      have hR := hoffdiag q r hrlt hqr
      rw [hkqr] at hR
      rw [hL, hR]

/-! ## List segment helpers for the BFS simulation -/

theorem drop_eq_getD_cons (L : List Nat) (k : Nat) (hk : k < L.length) :
    L.drop k = L.getD k 0 :: L.drop (k + 1) := by
  rw [List.getD_eq_getElem?_getD, List.getElem?_eq_getElem hk]
  simpa using List.drop_eq_getElem_cons hk

theorem take_succ_getD (L : List Nat) (k : Nat) (hk : k < L.length) :
    L.take (k + 1) = L.take k ++ [L.getD k 0] := by
  rw [List.getD_eq_getElem?_getD, List.getElem?_eq_getElem hk]
  rw [List.take_succ]
  simp [List.getElem?_eq_getElem hk]

theorem getD_take (L : List Nat) (m i : Nat) (hi : i < m) :
    (L.take m).getD i 0 = L.getD i 0 := by
  by_cases hlen : i < L.length
  · have hlt : i < (L.take m).length := by
      rw [List.length_take]
      omega
    rw [List.getD_eq_getElem?_getD, List.getElem?_eq_getElem hlt]
    rw [List.getD_eq_getElem?_getD, List.getElem?_eq_getElem hlen]
    simp [List.getElem_take]
  · have h1 : ¬ i < (L.take m).length := by
      rw [List.length_take]
      omega
    rw [List.getD_eq_getElem?_getD]
    rw [List.getElem?_eq_none (by omega)]
    rw [List.getD_eq_getElem?_getD]
    rw [List.getElem?_eq_none (by omega)]

theorem getD_drop (L : List Nat) (m i : Nat) (hlen : m + i < L.length) :
    (L.drop m).getD i 0 = L.getD (m + i) 0 := by
  have hlt : i < (L.drop m).length := by simp; omega
  rw [List.getD_eq_getElem?_getD, List.getElem?_eq_getElem hlt]
  rw [List.getD_eq_getElem?_getD, List.getElem?_eq_getElem hlen]
  simp [List.getElem_drop]

theorem mem_getD_exists (L : List Nat) (a : Nat) (h : a ∈ L) :
    ∃ i, i < L.length ∧ L.getD i 0 = a := by
  rcases List.mem_iff_getElem.1 h with ⟨i, hi, hg⟩
  refine ⟨i, hi, ?_⟩
  rw [List.getD_eq_getElem?_getD, List.getElem?_eq_getElem hi]
  exact hg

theorem mem_take_getD (L : List Nat) (m a : Nat) (h : a ∈ L.take m) :
    ∃ j, j < m ∧ j < L.length ∧ L.getD j 0 = a := by
  rcases mem_getD_exists (L.take m) a h with ⟨j, hj, hg⟩
  simp only [List.length_take] at hj
  have hjm : j < m := by omega
  have hjL : j < L.length := by omega
  refine ⟨j, hjm, hjL, ?_⟩
  rw [← getD_take L m j hjm]
  exact hg

theorem getD_mem_take (L : List Nat) (m j : Nat) (hjm : j < m) (hjL : j < L.length) :
    L.getD j 0 ∈ L.take m := by
  rw [← getD_take L m j hjm]
  have hlt : j < (L.take m).length := by simp; omega
  rw [List.getD_eq_getElem?_getD, List.getElem?_eq_getElem hlt]
  exact List.getElem_mem hlt

/-- Indices of a nodup list are determined by their values. -/
theorem nodup_getD_inj (L : List Nat) (hnd : L.Nodup) (i j : Nat)
    (hi : i < L.length) (hj : j < L.length) (h : L.getD i 0 = L.getD j 0) : i = j := by
  rw [List.getD_eq_getElem?_getD, List.getElem?_eq_getElem hi] at h
  rw [List.getD_eq_getElem?_getD, List.getElem?_eq_getElem hj] at h
  simp only [Option.getD_some] at h
  have heq : L.get ⟨i, hi⟩ = L.get ⟨j, hj⟩ := by
    simp only [List.get_eq_getElem]
    exact h
  have := (List.Nodup.get_inj_iff hnd).1 heq
  exact Fin.mk.inj_iff.1 this

theorem repVisited_getD_lt (m c u : Nat) (hu : u < m) :
    (List.replicate m true ++ List.replicate c false).getD u true = true := by
  have hlt : u < (List.replicate m true).length := by simpa using hu
  rw [List.getD_eq_getElem?_getD, List.getElem?_append_left hlt]
  rw [List.getElem?_replicate]
  simp [hu]

theorem repVisited_getD_ge (m c u : Nat) (hu : m ≤ u) (hc : u < m + c) :
    (List.replicate m true ++ List.replicate c false).getD u true = false := by
  rw [List.getD_eq_getElem?_getD, List.getElem?_append_right (by simpa using hu)]
  simp only [List.length_replicate]
  rw [List.getElem?_replicate]
  simp only [if_pos (by omega : u - m < c)]
  rfl

theorem countFalse_repVisited (m c : Nat) :
    countFalse (List.replicate m true ++ List.replicate c false) = c := by
  unfold countFalse
  rw [List.countP_append]
  simp [List.countP_replicate]

theorem markList_getD_true_iff (xs : List Nat) :
    ∀ (vis : List Bool) (u : Nat),
      (markList vis xs).getD u true = true ↔
        (vis.getD u true = true ∨ (u ∈ xs ∧ u < vis.length)) := by
  induction xs with
  | nil =>
    intro vis u
    simp only [markList, List.foldl_nil, List.not_mem_nil, false_and, or_false]
  | cons a t ih =>
    intro vis u
    unfold markList
    rw [List.foldl_cons]
    have hstep := ih (vis.set a true) u
    unfold markList at hstep
    rw [hstep]
    constructor
    · rintro (hvis | ⟨hmem, hlen⟩)
      · by_cases hau : a = u
        · subst hau
          by_cases hlen : a < vis.length
          · exact Or.inr ⟨List.mem_cons_self _ _, hlen⟩
          · rw [List.set_eq_of_length_le (by omega)] at hvis
            exact Or.inl hvis
        · rw [getD_set_ne vis a u true true hau] at hvis
          exact Or.inl hvis
      · exact Or.inr ⟨List.mem_cons_of_mem _ hmem, by simpa using hlen⟩
    · rintro (hvis | ⟨hmem, hlen⟩)
      · left
        by_cases hau : a = u
        · subst hau
          by_cases hl : a < vis.length
          · exact getD_set_self vis a true true hl
          · rw [List.set_eq_of_length_le (by omega)]
            exact hvis
        · rw [getD_set_ne vis a u true true hau]
          exact hvis
      · rcases List.mem_cons.1 hmem with rfl | hmem
        · left
          exact getD_set_self vis u true true hlen
        · exact Or.inr ⟨hmem, by simpa using hlen⟩

theorem set_repVisited (m c : Nat) (hc : 0 < c) :
    (List.replicate m true ++ List.replicate c false).set m true =
      List.replicate (m + 1) true ++ List.replicate (c - 1) false := by
  induction m with
  | zero =>
    cases c with
    | zero => omega
    | succ c' => simp [List.replicate_succ]
  | succ m' ih =>
    have h1 : List.replicate (m' + 1) true ++ List.replicate c false =
        true :: (List.replicate m' true ++ List.replicate c false) := by
      simp [List.replicate_succ]
    have h2 : List.replicate (m' + 1 + 1) true ++ List.replicate (c - 1) false =
        true :: (List.replicate (m' + 1) true ++ List.replicate (c - 1) false) := by
      simp [List.replicate_succ]
    rw [h1, h2, List.set_cons_succ, ih]

theorem markList_interval (cnt : Nat) :
    ∀ (m n : Nat), m + cnt ≤ n →
      markList (List.replicate m true ++ List.replicate (n - m) false)
          (List.range' m cnt) =
        List.replicate (m + cnt) true ++ List.replicate (n - (m + cnt)) false := by
  induction cnt with
  | zero => intro m n _; simp [markList]
  | succ c ih =>
    intro m n hbound
    rw [List.range'_succ]
    unfold markList
    rw [List.foldl_cons]
    rw [set_repVisited m (n - m) (by omega)]
    have := ih (m + 1) n (by omega)
    unfold markList at this
    have harg : n - m - 1 = n - (m + 1) := by omega
    rw [harg]
    rw [this]
    rw [show m + 1 + c = m + (c + 1) from by omega]

theorem range'_snoc : ∀ (c s : Nat), List.range' s (c + 1) = List.range' s c ++ [s + c] := by
  intro c
  induction c with
  | zero => intro s; rfl
  | succ c' ih =>
    intro s
    rw [List.range'_succ, ih (s + 1), List.range'_succ]
    rw [show s + 1 + c' = s + (c' + 1) from by omega]
    simp [List.cons_append]

theorem filterIv :
    ∀ (n m m' : Nat), m ≤ m' → m' ≤ n →
      (List.range n).filter (fun j => decide (m ≤ j) && decide (j < m')) =
        List.range' m (m' - m) := by
  intro n
  induction n with
  | zero => intro m m' h1 h2; have : m = m' := by omega
            subst this; simp
  | succ n ih =>
    intro m m' h1 h2
    rw [List.range_succ, List.filter_append]
    by_cases hm' : m' ≤ n
    · rw [ih m m' h1 hm']
      have : ((fun j => decide (m ≤ j) && decide (j < m')) n) = false := by
        simp
        omega
      simp [List.filter_cons, this]
    · have hm'n : m' = n + 1 := by omega
      subst hm'n
      by_cases hmn : m ≤ n
      · rw [show (List.range n).filter (fun j => decide (m ≤ j) && decide (j < n + 1)) =
            (List.range n).filter (fun j => decide (m ≤ j) && decide (j < n)) from ?_]
        · rw [ih m n hmn (le_refl n)]
          have hpn : ((fun j => decide (m ≤ j) && decide (j < n + 1)) n) = true := by
            simp
            omega
          simp only [List.filter_cons, hpn, List.filter_nil, if_true]
          rw [show n + 1 - m = n - m + 1 from by omega, range'_snoc (n - m) m,
            show m + (n - m) = n from by omega]
        · apply List.filter_congr
          intro j hj
          have hjn : j < n := List.mem_range.1 hj
          have hd1 : decide (j < n + 1) = true := by
            rw [decide_eq_true_iff]
            omega
          have hd2 : decide (j < n) = true := by
            rw [decide_eq_true_iff]
            omega
          simp only [hd1, hd2]
      · have hmn' : m = n + 1 := by omega
        subst hmn'
        have hempty : (List.range n).filter
            (fun j => decide (n + 1 ≤ j) && decide (j < n + 1)) = [] := by
          apply List.filter_eq_nil_iff.2
          intro j hj
          have hj' := List.mem_range.1 hj
          simp only [Bool.and_eq_true, decide_eq_true_eq, not_and]
          intro h1
          omega
        rw [hempty]
        have hlast : ((fun j => decide (n + 1 ≤ j) && decide (j < n + 1)) n) = false := by
          have h1 : ¬ (n + 1 ≤ n) := by omega
          simp [h1]
        simp [List.filter_cons, hlast]

theorem bfsLoop_nil (g : Graph) (fuel : Nat) (vis : List Bool) (acc : List Nat)
    (hf : 1 ≤ fuel) : bfsLoop g fuel vis [] acc = (acc, vis) := by
  obtain ⟨f, rfl⟩ : ∃ f, fuel = f + 1 := ⟨fuel - 1, by omega⟩
  rfl

theorem filter_filter_and {α : Type _} (p q : α → Bool) :
    ∀ (l : List α), (l.filter p).filter q = l.filter (fun a => p a && q a) := by
  intro l
  induction l with
  | nil => rfl
  | cons a t ih =>
    rw [List.filter_cons]
    by_cases hp : p a = true
    · simp only [hp, if_true, List.filter_cons, Bool.true_and]
      by_cases hq : q a = true
      · simp only [hq, if_true, ih]
      · simp only [hq, Bool.false_eq_true, if_false, ih]
    · have hp' : p a = false := by
        cases hb : p a
        · rfl
        · exact absurd hb hp
      simp only [hp', Bool.false_eq_true, if_false, List.filter_cons, Bool.false_and, ih]

/-- One step of the original BFS run: the newly discovered vertices are
exactly the next consecutive segment of the final taken list. -/
theorem bfs_sim_qstep (p : Position) (vis0 : List Bool) (L : List Nat)
    (hLnd : L.Nodup)
    (k m : Nat) (visQ : List Bool) (fq' : Nat)
    (hkm : k < m) (hmn : m ≤ L.length)
    (hvisQ : ∀ u, visQ.getD u true = true ↔ (vis0.getD u true = true ∨ u ∈ L.take m))
    (hfq : countFalse visQ + (m - k) + 1 ≤ fq' + 1)
    (hrun : (bfsLoop p.graph (fq' + 1) visQ ((L.drop k).take (m - k)) (L.take k)).1 = L) :
    m + ((p.graph.adjacentTo (L.getD k 0)).filter
        (fun u => decide (visQ.getD u true = false))).length ≤ L.length ∧
    (∀ i, i < ((p.graph.adjacentTo (L.getD k 0)).filter
        (fun u => decide (visQ.getD u true = false))).length →
      ((p.graph.adjacentTo (L.getD k 0)).filter
        (fun u => decide (visQ.getD u true = false))).getD i 0 = L.getD (m + i) 0) ∧
    (L.take (m + ((p.graph.adjacentTo (L.getD k 0)).filter
        (fun u => decide (visQ.getD u true = false))).length) =
      L.take m ++ (p.graph.adjacentTo (L.getD k 0)).filter
        (fun u => decide (visQ.getD u true = false))) ∧
    ((bfsLoop p.graph fq'
        (markList visQ ((p.graph.adjacentTo (L.getD k 0)).filter
          (fun u => decide (visQ.getD u true = false))))
        (((L.drop (k + 1)).take (m - (k + 1))) ++
          (p.graph.adjacentTo (L.getD k 0)).filter
            (fun u => decide (visQ.getD u true = false)))
        (L.take (k + 1))).1 = L) ∧
    countFalse (markList visQ ((p.graph.adjacentTo (L.getD k 0)).filter
        (fun u => decide (visQ.getD u true = false)))) +
      ((p.graph.adjacentTo (L.getD k 0)).filter
        (fun u => decide (visQ.getD u true = false))).length = countFalse visQ := by
  have hk : k < L.length := by omega
  set v := L.getD k 0 with hv
  set newQ := (p.graph.adjacentTo v).filter (fun u => decide (visQ.getD u true = false))
    with hnewQ
  have hnewQnd : newQ.Nodup := (adjacentTo_nodup p.graph v).filter _
  have hnewQunv : ∀ u ∈ newQ, visQ.getD u true = false := by
    intro u hu
    exact of_decide_eq_true (List.mem_filter.1 hu).2
  have hnewQlt : ∀ u ∈ newQ, u < p.graph.size := by
    intro u hu
    exact adjacentTo_lt p.graph v u (List.mem_filter.1 hu).1
  have hnewQlen : ∀ u ∈ newQ, u < visQ.length := by
    intro u hu
    exact getD_lt_length visQ u true (by rw [hnewQunv u hu]; exact Bool.false_ne_true)
  have hcf : countFalse (markList visQ newQ) + newQ.length = countFalse visQ :=
    countFalse_markList newQ visQ hnewQnd hnewQunv
  -- unfold one step of the run
  have hqueue : (L.drop k).take (m - k) = v :: (L.drop (k + 1)).take (m - (k + 1)) := by
    rw [drop_eq_getD_cons L k hk]
    rw [show m - k = (m - (k + 1)) + 1 from by omega]
    rfl
  have hstep : (bfsLoop p.graph (fq' + 1) visQ ((L.drop k).take (m - k)) (L.take k)) =
      bfsLoop p.graph fq' (markList visQ newQ)
        (((L.drop (k + 1)).take (m - (k + 1))) ++ newQ) (L.take (k + 1)) := by
    rw [hqueue]
    show bfsLoop p.graph fq'
      (bfsVisit p.graph v (visQ, (L.drop (k + 1)).take (m - (k + 1)))).1
      (bfsVisit p.graph v (visQ, (L.drop (k + 1)).take (m - (k + 1)))).2
      (L.take k ++ [v]) = _
    have hvisit : bfsVisit p.graph v (visQ, (L.drop (k + 1)).take (m - (k + 1))) =
        (markList visQ newQ, (L.drop (k + 1)).take (m - (k + 1)) ++ newQ) := by
      unfold bfsVisit
      exact bfsVisit_eq_filter (p.graph.adjacentTo v) (adjacentTo_nodup p.graph v) visQ _
    rw [hvisit, ← take_succ_getD L k hk]
  have hrun' : (bfsLoop p.graph fq' (markList visQ newQ)
      (((L.drop (k + 1)).take (m - (k + 1))) ++ newQ) (L.take (k + 1))).1 = L := by
    rw [← hstep]
    exact hrun
  -- segment identities
  have hseg : L.take (k + 1) ++ (L.drop (k + 1)).take (m - (k + 1)) = L.take m := by
    rw [← List.drop_take m (k + 1) L]
    have h1 : L.take (k + 1) = (L.take m).take (k + 1) := by
      rw [List.take_take]
      rw [Nat.min_eq_left (by omega)]
    rw [h1, List.take_append_drop]
  -- apply the loop specification to the next state
  have hmark' : ∀ u ∈ (L.take (k + 1)) ++ ((L.drop (k + 1)).take (m - (k + 1)) ++ newQ),
      (markList visQ newQ).getD u true = true := by
    intro u hu
    rcases List.mem_append.1 hu with hu | hu
    · apply markList_getD_mono
      rw [hvisQ u]
      right
      have : u ∈ L.take m := by
        rw [← hseg]
        exact List.mem_append.2 (Or.inl hu)
      exact this
    · rcases List.mem_append.1 hu with hu | hu
      · apply markList_getD_mono
        rw [hvisQ u]
        right
        rw [← hseg]
        exact List.mem_append.2 (Or.inr hu)
      · exact markList_marks newQ visQ u hu (hnewQlen u hu)
  have hnd' : ((L.take (k + 1)) ++ ((L.drop (k + 1)).take (m - (k + 1)) ++ newQ)).Nodup := by
    have hre : (L.take (k + 1)) ++ ((L.drop (k + 1)).take (m - (k + 1)) ++ newQ) =
        L.take m ++ newQ := by
      rw [← List.append_assoc, hseg]
    rw [hre, List.nodup_append]
    refine ⟨List.Nodup.sublist (List.take_sublist m L) hLnd, hnewQnd, ?_⟩
    intro u hu hu'
    have h1 : visQ.getD u true = true := (hvisQ u).2 (Or.inr hu)
    have h2 : visQ.getD u true = false := hnewQunv u hu'
    rw [h1] at h2
    exact absurd h2 (by simp)
  have hfq' : countFalse (markList visQ newQ) +
      ((L.drop (k + 1)).take (m - (k + 1)) ++ newQ).length + 1 ≤ fq' := by
    rw [List.length_append]
    have hlen1 : ((L.drop (k + 1)).take (m - (k + 1))).length ≤ m - (k + 1) := by
      rw [List.length_take]
      omega
    have hlen2 : ((L.drop (k + 1)).take (m - (k + 1))).length = m - (k + 1) := by
      rw [List.length_take, List.length_drop]
      omega
    omega
  rcases bfsLoop_spec p.graph fq' (markList visQ newQ)
      ((L.drop (k + 1)).take (m - (k + 1)) ++ newQ) (L.take (k + 1)) hfq' hmark' hnd'
    with ⟨rest', hres', _, _, _, _⟩
  rw [hrun'] at hres'
  have hLdecomp : L = L.take m ++ newQ ++ rest' := by
    rw [← hseg]
    simpa [List.append_assoc] using hres'
  have htakelen : (L.take m).length = m := by
    rw [List.length_take]
    omega
  have hm'n : m + newQ.length ≤ L.length := by
    have : L.length = (L.take m ++ newQ ++ rest').length := by rw [← hLdecomp]
    simp only [List.length_append] at this
    omega
  have htakem' : L.take (m + newQ.length) = L.take m ++ newQ := by
    have h1 : (L.take m ++ newQ).length = m + newQ.length := by
      rw [List.length_append, htakelen]
    calc L.take (m + newQ.length) = ((L.take m ++ newQ) ++ rest').take (m + newQ.length) := by
          rw [← hLdecomp]
      _ = L.take m ++ newQ := by
          rw [← h1, List.take_left]
  refine ⟨hm'n, ?_, htakem', hrun', hcf⟩
  intro i hi
  have hdropm : (L.take (m + newQ.length)).drop m = newQ := by
    rw [htakem']
    have hdl := List.drop_left (L.take m) newQ
    rw [htakelen] at hdl
    exact hdl
  have hlen' : (L.take (m + newQ.length)).length = m + newQ.length := by
    rw [htakem', List.length_append, htakelen]
  have hstep1 : ((L.take (m + newQ.length)).drop m).getD i 0 = L.getD (m + i) 0 := by
    rw [getD_drop _ _ _ (by rw [hlen']; omega)]
    exact getD_take L (m + newQ.length) (m + i) (by omega)
  have hfin : newQ.getD i 0 = ((L.take (m + newQ.length)).drop m).getD i 0 := by
    rw [hdropm]
  rw [hfin, hstep1]

theorem getD_mem_of_lt (l : List Nat) (i : Nat) (h : i < l.length) : l.getD i 0 ∈ l := by
  rw [List.getD_eq_getElem?_getD, List.getElem?_eq_getElem h]
  exact List.getElem_mem h

/-- One step of the re-run BFS on the rebuilt component graph: the freshly
discovered relabeled vertices are exactly the next index interval. -/
theorem bfs_sim_cstep (p : Position) (vis0 : List Bool) (L : List Nat)
    (hLnd : L.Nodup) (hLlt : ∀ u ∈ L, u < p.graph.size)
    (hLunv : ∀ j, 1 ≤ j → j < L.length → vis0.getD (L.getD j 0) true = false)
    (k m cnt : Nat) (visQ : List Bool)
    (hkm : k < m) (hm1 : 1 ≤ m) (hcnt : m + cnt ≤ L.length)
    (hvisQ : ∀ u, visQ.getD u true = true ↔ (vis0.getD u true = true ∨ u ∈ L.take m))
    (hcntlen : ((p.graph.adjacentTo (L.getD k 0)).filter
        (fun u => decide (visQ.getD u true = false))).length = cnt)
    (hidx : ∀ i, i < cnt →
      ((p.graph.adjacentTo (L.getD k 0)).filter
        (fun u => decide (visQ.getD u true = false))).getD i 0 = L.getD (m + i) 0) :
    ((buildComponentGraph p L).adjacentTo k).filter
        (fun u => decide ((List.replicate m true ++
          List.replicate (L.length - m) false).getD u true = false)) =
      List.range' m cnt := by
  set v := L.getD k 0 with hv
  set newQ := (p.graph.adjacentTo v).filter (fun u => decide (visQ.getD u true = false))
    with hnewQdef
  have hkL : k < L.length := by omega
  have hbwf := bcg_wf p L
  have hbadj := bcg_are_adjacent p L hLnd hLlt
  have hstep1 : (buildComponentGraph p L).adjacentTo k =
      (List.range L.length).filter (fun u => (buildComponentGraph p L).are_adjacent k u) := by
    unfold Graph.adjacentTo
    rw [hbwf.1]
  rw [hstep1, filter_filter_and]
  have hcong : ∀ u ∈ List.range L.length,
      ((buildComponentGraph p L).are_adjacent k u &&
        decide ((List.replicate m true ++
          List.replicate (L.length - m) false).getD u true = false)) =
      (decide (m ≤ u) && decide (u < m + cnt)) := by
    intro u hu
    have hun : u < L.length := List.mem_range.1 hu
    by_cases hum : u < m
    · -- visited: both sides false
      have hvisited : (List.replicate m true ++
          List.replicate (L.length - m) false).getD u true = true :=
        repVisited_getD_lt m (L.length - m) u hum
      rw [hvisited]
      have h1 : decide ((true : Bool) = false) = false := by rfl
      rw [h1]
      have h2 : decide (m ≤ u) = false := by
        rw [decide_eq_false_iff_not]
        omega
      rw [h2]
      simp
    · -- unvisited: compare adjacency with segment membership
      have hvisited : (List.replicate m true ++
          List.replicate (L.length - m) false).getD u true = false :=
        repVisited_getD_ge m (L.length - m) u (by omega) (by omega)
      rw [hvisited]
      have h1 : decide ((false : Bool) = false) = true := by rfl
      rw [h1]
      have h2 : decide (m ≤ u) = true := by
        rw [decide_eq_true_iff]
        omega
      rw [h2]
      simp only [Bool.and_true, Bool.true_and]
      -- now: cg.are_adjacent k u = decide (u < m + cnt)
      cases hadj : (buildComponentGraph p L).are_adjacent k u with
      | true =>
        have hfact := (hbadj k u).1 hadj
        have hadjQ : p.graph.are_adjacent (L.getD k 0) (L.getD u 0) = true := hfact.2.2
        have hmem : L.getD u 0 ∈ newQ := by
          rw [hnewQdef]
          rw [List.mem_filter]
          constructor
          · unfold Graph.adjacentTo
            rw [List.mem_filter]
            exact ⟨List.mem_range.2 (hLlt _ (getD_mem_of_lt L u hun)), hadjQ⟩
          · rw [decide_eq_true_iff]
            cases hb : visQ.getD (L.getD u 0) true
            · rfl
            · exfalso
              rcases (hvisQ (L.getD u 0)).1 hb with hvis | htake
              · rw [hLunv u (by omega) hun] at hvis
                cases hvis
              · rcases mem_take_getD L m (L.getD u 0) htake with ⟨j, hjm, hjL, hjeq⟩
                have := nodup_getD_inj L hLnd j u hjL hun hjeq
                omega
        rcases mem_getD_exists newQ (L.getD u 0) hmem with ⟨i, hilen, hieq⟩
        rw [hcntlen] at hilen
        rw [hidx i hilen] at hieq
        have hueq := nodup_getD_inj L hLnd (m + i) u (by omega) hun hieq
        have hult : u < m + cnt := by omega
        simp [hult]
      | false =>
        cases hdec : decide (u < m + cnt) with
        | false => rfl
        | true =>
          exfalso
          have hucnt : u < m + cnt := of_decide_eq_true hdec
          have hmem : L.getD u 0 ∈ newQ := by
            have h3 : newQ.getD (u - m) 0 = L.getD u 0 := by
              rw [hidx (u - m) (by omega)]
              congr 1
              omega
            rw [← h3]
            apply getD_mem_of_lt
            rw [hcntlen]
            omega
          rw [hnewQdef, List.mem_filter] at hmem
          have hadjmem := hmem.1
          unfold Graph.adjacentTo at hadjmem
          rw [List.mem_filter] at hadjmem
          have hadjQ : p.graph.are_adjacent v (L.getD u 0) = true := hadjmem.2
          have : (buildComponentGraph p L).are_adjacent k u = true := by
            rw [(hbadj k u).2 ⟨by omega, hun, hadjQ⟩]
          rw [this] at hadj
          cases hadj
  rw [List.filter_congr hcong]
  have := filterIv L.length m (m + cnt) (by omega) hcnt
  rw [this]
  congr 1
  omega

/-- Terminal state of the simulation: when the queue is empty the original
run has taken everything, and so has the re-run. -/
theorem bfs_sim_terminal (p : Position) (L : List Nat)
    (k : Nat) (visQ : List Bool) (fq fc : Nat)
    (hkn : k ≤ L.length)
    (hfq : countFalse visQ + 1 ≤ fq)
    (hfc : 1 ≤ fc)
    (hrun : (bfsLoop p.graph fq visQ ((L.drop k).take 0) (L.take k)).1 = L) :
    (bfsLoop (buildComponentGraph p L) fc
        (List.replicate k true ++ List.replicate (L.length - k) false)
        (List.range' k 0) (List.range k)).1 = List.range L.length ∧
    (∀ u, (bfsLoop (buildComponentGraph p L) fc
        (List.replicate k true ++ List.replicate (L.length - k) false)
        (List.range' k 0) (List.range k)).2.getD u true = true) := by
  rw [List.take_zero] at hrun
  rw [bfsLoop_nil p.graph fq visQ (L.take k) (by omega)] at hrun
  simp only at hrun
  have hkeq : k = L.length := by
    have hlen : (L.take k).length = L.length := by rw [hrun]
    rw [List.length_take] at hlen
    omega
  subst hkeq
  have hnil : List.range' L.length 0 = [] := rfl
  rw [hnil, bfsLoop_nil (buildComponentGraph p L) fc _ (List.range L.length) hfc]
  refine ⟨rfl, ?_⟩
  intro u
  simp only
  by_cases hu : u < L.length
  · rw [show L.length - L.length = 0 from by omega]
    exact repVisited_getD_lt L.length 0 u hu
  · have hlen : (List.replicate L.length true ++
        List.replicate (L.length - L.length) false).length ≤ u := by
      rw [List.length_append, List.length_replicate, List.length_replicate]
      omega
    rw [List.getD_eq_getElem?_getD, List.getElem?_eq_none hlen]
    rfl

/-- The BFS re-run on the rebuilt component graph discovers the vertices in
index order: step-by-step simulation of the original run. -/
theorem bfs_sim (p : Position) (vis0 : List Bool) (L : List Nat)
    (hLnd : L.Nodup) (hLlt : ∀ u ∈ L, u < p.graph.size)
    (hLunv : ∀ j, 1 ≤ j → j < L.length → vis0.getD (L.getD j 0) true = false) :
    ∀ (d k m : Nat) (visQ : List Bool) (fq fc : Nat),
      L.length - k ≤ d →
      k ≤ m → m ≤ L.length → 1 ≤ m →
      (∀ u, visQ.getD u true = true ↔ (vis0.getD u true = true ∨ u ∈ L.take m)) →
      countFalse visQ + (m - k) + 1 ≤ fq →
      (L.length - m) + (m - k) + 1 ≤ fc →
      (bfsLoop p.graph fq visQ ((L.drop k).take (m - k)) (L.take k)).1 = L →
      (bfsLoop (buildComponentGraph p L) fc
          (List.replicate m true ++ List.replicate (L.length - m) false)
          (List.range' k (m - k)) (List.range k)).1 = List.range L.length ∧
      (∀ u, (bfsLoop (buildComponentGraph p L) fc
          (List.replicate m true ++ List.replicate (L.length - m) false)
          (List.range' k (m - k)) (List.range k)).2.getD u true = true) := by
  intro d
  induction d with
  | zero =>
    intro k m visQ fq fc hd hkm hmn hm1 hvisQ hfq hfc hrun
    have hkm' : k = m := by omega
    subst hkm'
    rw [show k - k = 0 from by omega] at hrun ⊢
    exact bfs_sim_terminal p L k visQ fq fc (by omega) (by omega) (by omega) hrun
  | succ d ih =>
    intro k m visQ fq fc hd hkm hmn hm1 hvisQ hfq hfc hrun
    by_cases hkm' : k = m
    · subst hkm'
      rw [show k - k = 0 from by omega] at hrun ⊢
      exact bfs_sim_terminal p L k visQ fq fc (by omega) (by omega) (by omega) hrun
    · have hklt : k < m := by omega
      obtain ⟨fq', rfl⟩ : ∃ f, fq = f + 1 := ⟨fq - 1, by omega⟩
      obtain ⟨fc', rfl⟩ : ∃ f, fc = f + 1 := ⟨fc - 1, by omega⟩
      have hq := bfs_sim_qstep p vis0 L hLnd k m visQ fq' hklt hmn hvisQ hfq hrun
      set newQ := (p.graph.adjacentTo (L.getD k 0)).filter
        (fun u => decide (visQ.getD u true = false)) with hnewQdef
      obtain ⟨hm'n, hidx, htakem', hrun', hcf⟩ := hq
      set cnt := newQ.length with hcntdef
      have hc := bfs_sim_cstep p vis0 L hLnd hLlt hLunv k m cnt visQ hklt hm1 hm'n
        hvisQ rfl hidx
      -- unfold one step of the re-run
      have hqrange : List.range' k (m - k) = k :: List.range' (k + 1) (m - (k + 1)) := by
        rw [show m - k = (m - (k + 1)) + 1 from by omega]
        have := List.range'_succ k (m - (k + 1)) 1
        simpa using this
      have hvisitC : bfsVisit (buildComponentGraph p L) k
          (List.replicate m true ++ List.replicate (L.length - m) false,
            List.range' (k + 1) (m - (k + 1))) =
          (markList (List.replicate m true ++ List.replicate (L.length - m) false)
            (List.range' m cnt),
           List.range' (k + 1) (m - (k + 1)) ++ List.range' m cnt) := by
        unfold bfsVisit
        rw [bfsVisit_eq_filter ((buildComponentGraph p L).adjacentTo k)
          (adjacentTo_nodup _ k) _ _]
        rw [hc]
      have hqeq : List.range' (k + 1) (m - (k + 1)) ++ List.range' m cnt =
          List.range' (k + 1) ((m + cnt) - (k + 1)) := by
        have hap := List.range'_append (k + 1) (m - (k + 1)) cnt 1
        simp only [Nat.one_mul] at hap
        rw [show k + 1 + (m - (k + 1)) = m from by omega] at hap
        rw [hap]
        congr 1
        omega
      have hstepC : bfsLoop (buildComponentGraph p L) (fc' + 1)
          (List.replicate m true ++ List.replicate (L.length - m) false)
          (List.range' k (m - k)) (List.range k) =
          bfsLoop (buildComponentGraph p L) fc'
            (List.replicate (m + cnt) true ++ List.replicate (L.length - (m + cnt)) false)
            (List.range' (k + 1) ((m + cnt) - (k + 1))) (List.range (k + 1)) := by
        rw [hqrange]
        show bfsLoop (buildComponentGraph p L) fc'
          (bfsVisit (buildComponentGraph p L) k _).1
          (bfsVisit (buildComponentGraph p L) k _).2 (List.range k ++ [k]) = _
        rw [hvisitC]
        dsimp only
        rw [markList_interval cnt m L.length hm'n, hqeq, ← List.range_succ]
      rw [hstepC]
      -- invariants for the next state
      have hvisQ' : ∀ u, (markList visQ newQ).getD u true = true ↔
          (vis0.getD u true = true ∨ u ∈ L.take (m + cnt)) := by
        intro u
        rw [markList_getD_true_iff, htakem']
        constructor
        · rintro (hv | ⟨hmem, _⟩)
          · rcases (hvisQ u).1 hv with h | h
            · exact Or.inl h
            · exact Or.inr (List.mem_append.2 (Or.inl h))
          · exact Or.inr (List.mem_append.2 (Or.inr hmem))
        · rintro (hv | hmem)
          · exact Or.inl ((hvisQ u).2 (Or.inl hv))
          · rcases List.mem_append.1 hmem with h | h
            · exact Or.inl ((hvisQ u).2 (Or.inr h))
            · refine Or.inr ⟨h, ?_⟩
              have : visQ.getD u true = false :=
                of_decide_eq_true (List.mem_filter.1 h).2
              exact getD_lt_length visQ u true (by rw [this]; exact Bool.false_ne_true)
      -- the next-state original run, in the IH's queue shape
      have hqshape : (L.drop (k + 1)).take ((m + cnt) - (k + 1)) =
          (L.drop (k + 1)).take (m - (k + 1)) ++ newQ := by
        have h1 : (L.take (m + cnt)).drop (k + 1) =
            (L.drop (k + 1)).take ((m + cnt) - (k + 1)) := List.drop_take (m + cnt) (k + 1) L
        have h2 : (L.take (m + cnt)).drop (k + 1) =
            (L.take m).drop (k + 1) ++ newQ := by
          rw [htakem']
          exact List.drop_append_of_le_length (by rw [List.length_take]; omega)
        have h3 : (L.take m).drop (k + 1) = (L.drop (k + 1)).take (m - (k + 1)) :=
          List.drop_take m (k + 1) L
        rw [← h1, h2, h3]
      have hrun'' : (bfsLoop p.graph fq' (markList visQ newQ)
          ((L.drop (k + 1)).take ((m + cnt) - (k + 1))) (L.take (k + 1))).1 = L := by
        rw [hqshape]
        exact hrun'
      exact ih (k + 1) (m + cnt) (markList visQ newQ) fq' fc' (by omega) (by omega)
        hm'n (by omega) hvisQ' (by omega) (by omega) hrun''

/-- Full specification of the vertex list discovered by `Position::bfs`:
it starts with `v`, its tail consists of vertices unvisited at the start
and in range, and the whole list is duplicate-free. -/
theorem bfs_vtt_full (p : Position) (vis : List Bool) (v : Nat) (hv : v < p.graph.size) :
    ∃ rest,
      (bfsLoop p.graph (countFalse (vis.set v true) + 2) (vis.set v true) [v] []).1 =
        v :: rest ∧
      (∀ u ∈ rest, (vis.set v true).getD u true = false ∧ u < p.graph.size) ∧
      (v :: rest).Nodup := by
  have hv0 : (vis.set v true).getD v true = true := by
    by_cases hlen : v < vis.length
    · exact getD_set_self vis v true true hlen
    · rw [List.set_eq_of_length_le (by omega)]
      rw [List.getD_eq_getElem?_getD, List.getElem?_eq_none (by omega)]
      rfl
  have hmark : ∀ u ∈ ([] : List Nat) ++ [v], (vis.set v true).getD u true = true := by
    intro u hu
    rcases List.mem_singleton.1 (by simpa using hu) with rfl
    exact hv0
  have hnd : (([] : List Nat) ++ [v]).Nodup := by simp
  rcases bfsLoop_spec p.graph (countFalse (vis.set v true) + 2) (vis.set v true) [v] []
    (by rw [List.length_singleton]) hmark hnd with ⟨rest, hres, _, _, hrest, hndfin⟩
  exact ⟨rest, by simpa using hres, hrest, by simpa using hndfin⟩

/-- Once every vertex is visited, the decomposition scan is inert. -/
theorem decompStep_inert (p : Position) :
    ∀ (l : List Nat) (acc : List Position) (vis : List Bool),
      (∀ u, vis.getD u true = true) →
      l.foldl (Position.decompStep p) (acc, vis) = (acc, vis) := by
  intro l
  induction l with
  | nil => intro acc vis _; rfl
  | cons a t ih =>
    intro acc vis hvis
    rw [List.foldl_cons]
    have hstep : Position.decompStep p (acc, vis) a = (acc, vis) := by
      unfold Position.decompStep
      rw [if_neg]
      rintro ⟨-, h2⟩
      rw [hvis a] at h2
      exact Bool.noConfusion h2
    rw [hstep]
    exact ih acc vis hvis

/-- The re-BFS identity: decomposing a component produced by the BFS
decomposition yields exactly that component back. -/
theorem decomp_idem (p c : Position) (hc : c ∈ p.decompositions) :
    c.decompositions = [c] := by
  rcases decompositions_mem p c hc with ⟨vis, v, hv, hcolor, hunv, hceq⟩
  rcases bfs_vtt_full p vis v hv with ⟨rest, hvtt, hrest, hnd⟩
  set L : List Nat := v :: rest with hLdef
  set vis0 : List Bool := vis.set v true with hvis0
  have hL1 : L.length = rest.length + 1 := by rw [hLdef]; rfl
  obtain ⟨n', hn'⟩ : ∃ k, L.length = k + 1 := ⟨rest.length, hL1⟩
  have hLnd : L.Nodup := hnd
  have hLlt : ∀ u ∈ L, u < p.graph.size := by
    intro u hu
    rcases List.mem_cons.1 hu with rfl | hu
    · exact hv
    · exact (hrest u hu).2
  have hLunv : ∀ j, 1 ≤ j → j < L.length → vis0.getD (L.getD j 0) true = false := by
    intro j hj1 hjn
    obtain ⟨j', rfl⟩ : ∃ j', j = j' + 1 := ⟨j - 1, by omega⟩
    have hgd : L.getD (j' + 1) 0 = rest.getD j' 0 := by rw [hLdef]; rfl
    rw [hgd]
    have hmem : rest.getD j' 0 ∈ rest := getD_mem_of_lt rest j' (by omega)
    exact (hrest _ hmem).1
  have hv0 : vis0.getD v true = true := by
    rw [hvis0]
    by_cases hlen : v < vis.length
    · exact getD_set_self vis v true true hlen
    · rw [List.set_eq_of_length_le (by omega)]
      rw [List.getD_eq_getElem?_getD, List.getElem?_eq_none (by omega)]
      rfl
  have htake1 : L.take 1 = [v] := by rw [hLdef]; rfl
  have hvisQ1 : ∀ u, vis0.getD u true = true ↔
      (vis0.getD u true = true ∨ u ∈ L.take 1) := by
    intro u
    constructor
    · exact Or.inl
    · rintro (h | h)
      · exact h
      · rw [htake1, List.mem_singleton] at h
        subst h
        exact hv0
  have hrun1 : (bfsLoop p.graph (countFalse vis0 + 2) vis0
      ((L.drop 0).take (1 - 0)) (L.take 0)).1 = L := by
    rw [show (L.drop 0).take (1 - 0) = [v] from by rw [hLdef]; rfl,
      show L.take 0 = ([] : List Nat) from rfl]
    exact hvtt
  have hset : (List.replicate L.length false).set 0 true =
      List.replicate 1 true ++ List.replicate (L.length - 1) false := by
    have h := set_repVisited 0 L.length (by omega)
    simpa using h
  have hcnt0 : countFalse ((List.replicate L.length false).set 0 true) = L.length - 1 := by
    rw [hset]
    exact countFalse_repVisited 1 (L.length - 1)
  have hsim := bfs_sim p vis0 L hLnd hLlt hLunv L.length 0 1 vis0
    (countFalse vis0 + 2) (countFalse ((List.replicate L.length false).set 0 true) + 2)
    (by omega) (by omega) (by omega) (by omega) hvisQ1 (by omega) (by omega) hrun1
  rw [show List.range' 0 (1 - 0) = [0] from rfl,
    show (List.range 0 : List Nat) = [] from rfl, ← hset] at hsim
  have hceq' : c = Position.mk (L.map (fun u => p.vertices.getD u VertexColor.Taken))
      (buildComponentGraph p L) := by
    rw [hceq]
    unfold Position.bfs
    simp only
    rw [← hvis0, hvtt]
  have hcvert : c.vertices = L.map (fun u => p.vertices.getD u VertexColor.Taken) := by
    rw [hceq']
  have hcgraph : c.graph = buildComponentGraph p L := by
    rw [hceq']
  have hcsize : c.graph.size = L.length := by
    rw [hcgraph]
    exact buildComponentGraph_size p L
  have hcvlen : c.vertices.length = L.length := by
    rw [hcvert]
    simp
  have hmatlen : c.graph.adjacency_matrix.length = L.length * L.length := by
    rw [hcgraph]
    exact (bcg_wf p L).2
  have hoffdiag : ∀ a b, b < L.length → a < b →
      c.graph.adjacency_matrix.getD (L.length * a + b) false = false := by
    intro a b hb hab
    rw [hcgraph]
    exact bcg_offdiag_false p L a b hb hab
  have hsound : ∀ x y, c.graph.are_adjacent x y = true → x < L.length ∧ y < L.length := by
    intro x y hxy
    rw [hcgraph] at hxy
    have h := (bcg_are_adjacent p L hLnd hLlt x y).1 hxy
    exact ⟨h.1, h.2.1⟩
  have hbuildid : buildComponentGraph c (List.range L.length) = c.graph :=
    build_identity c L.length hcsize hmatlen hoffdiag hsound
  have hmapid : (List.range L.length).map (fun u => c.vertices.getD u VertexColor.Taken) =
      c.vertices := by
    rw [← hcvlen]
    exact map_getD_range VertexColor.Taken c.vertices
  have hbfs : (c.bfs (List.replicate L.length false) 0).1 = c ∧
      ∀ u, (c.bfs (List.replicate L.length false) 0).2.getD u true = true := by
    unfold Position.bfs
    simp only
    rw [hcgraph, hsim.1]
    constructor
    · rw [hmapid, hbuildid]
    · exact hsim.2
  have hg0 : (List.replicate L.length false).getD 0 true = false := by
    rw [hn']
    rfl
  have hcol0 : c.vertices.getD 0 VertexColor.Taken ≠ VertexColor.Taken := by
    have h1 : c.vertices.getD 0 VertexColor.Taken =
        p.vertices.getD (L.getD 0 0) VertexColor.Taken := by
      rw [hcvert]
      exact getD_map_lt (fun u => p.vertices.getD u VertexColor.Taken) L 0
        VertexColor.Taken 0 (by omega)
    rw [h1, show L.getD 0 0 = v from by rw [hLdef]; rfl]
    exact hcolor
  unfold Position.decompositions
  have hverts : c.graph.vertices = List.range L.length := by
    unfold Graph.vertices
    rw [hcsize]
  rw [hverts, hcvlen]
  have hsplit : List.range L.length = 0 :: List.range' 1 (L.length - 1) := by
    rw [hn', List.range_eq_range']
    simp only [Nat.add_sub_cancel]
    have h := List.range'_succ 0 n' 1
    simpa using h
  rw [hsplit, List.foldl_cons]
  have hcond : c.vertices.getD 0 VertexColor.Taken ≠ VertexColor.Taken ∧
      ((([] : List Position), List.replicate L.length false)).2.getD 0 true = false :=
    ⟨hcol0, hg0⟩
  have hstep0 : Position.decompStep c ([], List.replicate L.length false) 0 =
      ([c], (c.bfs (List.replicate L.length false) 0).2) := by
    unfold Position.decompStep
    rw [if_pos hcond]
    simp only
    rw [List.nil_append, hbfs.1]
  rw [hstep0]
  rw [decompStep_inert c (List.range' 1 (L.length - 1)) [c]
    ((c.bfs (List.replicate L.length false) 0).2) hbfs.2]

/-- Fuel-irrelevance of the reference value: any fuel above the measure
gives the same game tree. -/
theorem snortVal_congr :
    ∀ (N f1 f2 : Nat) (p : Position), mv p < N → mv p + 1 ≤ f1 → mv p + 1 ≤ f2 →
      snortVal f1 p = snortVal f2 p := by
  intro N
  induction N with
  | zero => intro f1 f2 p h _ _; omega
  | succ N ih =>
    intro f1 f2 p hN h1 h2
    obtain ⟨f1', rfl⟩ : ∃ g, f1 = g + 1 := ⟨f1 - 1, by omega⟩
    obtain ⟨f2', rfl⟩ : ∃ g, f2 = g + 1 := ⟨f2 - 1, by omega⟩
    unfold snortVal
    apply foldl_congr
    intro s c hc
    have hlm : c.left_moves.map (snortVal f1') = c.left_moves.map (snortVal f2') := by
      apply List.map_congr_left
      intro q hq
      have hmv : mv q < mv p :=
        mv_comp_move_lt p c q hc VertexColor.TintLeft (by decide) hq
      exact ih f1' f2' q (by omega) (by omega) (by omega)
    have hrm : c.right_moves.map (snortVal f1') = c.right_moves.map (snortVal f2') := by
      apply List.map_congr_left
      intro q hq
      have hmv : mv q < mv p :=
        mv_comp_move_lt p c q hc VertexColor.TintRight (by decide) hq
      exact ih f1' f2' q (by omega) (by omega) (by omega)
    rw [hlm, hrm]

/-- On a component of a decomposition, the reference value unfolds to the
game whose options are the values of the component's moves (the sum over
the re-decomposition collapses by the re-BFS identity). -/
theorem snortComponent_mk (p c : Position) (hc : c ∈ p.decompositions) :
    snortGame c = Game.mk (c.left_moves.map snortGame) (c.right_moves.map snortGame) := by
  have hid := decomp_idem p c hc
  have hwf := decomp_wf p c hc
  show snortVal (mv c + 1) c = _
  unfold snortVal
  rw [hid, List.foldl_cons, List.foldl_nil]
  rw [Game.add_zero_eq]
  congr 1
  · apply List.map_congr_left
    intro q hq
    have hmv : mv q < mv c := mv_move_lt c VertexColor.TintLeft q hwf (by decide) hq
    exact snortVal_congr (mv c) (mv c) (mv q + 1) q (by omega) (by omega) (by omega)
  · apply List.map_congr_left
    intro q hq
    have hmv : mv q < mv c := mv_move_lt c VertexColor.TintRight q hwf (by decide) hq
    exact snortVal_congr (mv c) (mv c) (mv q + 1) q (by omega) (by omega) (by omega)

/-- The reference value of a position is the sum of the reference values
of its components. -/
theorem snortGame_sum (p : Position) :
    snortGame p =
      p.decompositions.foldl (fun acc c => Game.add (snortGame c) acc) Game.zero := by
  show snortVal (mv p + 1) p = _
  unfold snortVal
  apply foldl_congr
  intro s c hc
  rw [snortComponent_mk p c hc]
  congr 2
  · apply List.map_congr_left
    intro q hq
    have hmv : mv q < mv p :=
      mv_comp_move_lt p c q hc VertexColor.TintLeft (by decide) hq
    exact snortVal_congr (mv p) (mv p) (mv q + 1) q (by omega) (by omega) (by omega)
  · apply List.map_congr_left
    intro q hq
    have hmv : mv q < mv p :=
      mv_comp_move_lt p c q hc VertexColor.TintRight (by decide) hq
    exact snortVal_congr (mv p) (mv p) (mv q + 1) q (by omega) (by omega) (by omega)

/-- A transposition table is valid when every cached entry is the game
value of its key (the table invariant of spec §3). -/
def ValidT (t : TT) : Prop :=
  ∀ k g, rwGet t k = some g → Game.Equiv g (snortGame k)

theorem validT_rwNew : ValidT (rwNew : TT) := by
  intro k g h
  exact Option.noConfusion h

theorem forall2_append {α β : Type _} {R : α → β → Prop} :
    ∀ {l1 : List α} {l2 : List β} {l3 : List α} {l4 : List β},
      List.Forall₂ R l1 l2 → List.Forall₂ R l3 l4 →
      List.Forall₂ R (l1 ++ l3) (l2 ++ l4) := by
  intro l1 l2 l3 l4 h12 h34
  induction h12 with
  | nil => simpa using h34
  | cons h t ih => exact List.Forall₂.cons h ih

/-- Mapping the canonicalization over a move list threads the table,
producing values equivalent to the reference values and preserving the
table invariant. -/
theorem mapThread_correct (f : Position → TT → Game × TT) :
    ∀ (ps : List Position),
      (∀ q ∈ ps, ∀ t, ValidT t →
        Game.Equiv (f q t).1 (snortGame q) ∧ ValidT (f q t).2) →
      ∀ (acc G : List Game) (t : TT),
        List.Forall₂ Game.Equiv acc G → ValidT t →
        List.Forall₂ Game.Equiv (ps.foldl (mapThreadStep f) (acc, t)).1
            (G ++ ps.map snortGame) ∧
        ValidT (ps.foldl (mapThreadStep f) (acc, t)).2 := by
  intro ps
  induction ps with
  | nil =>
    intro _ acc G t hacc ht
    exact ⟨by simpa using hacc, ht⟩
  | cons q ps' ih =>
    intro hf acc G t hacc ht
    rw [List.foldl_cons]
    have hq := hf q (List.mem_cons_self q ps') t ht
    have hstep : mapThreadStep f (acc, t) q = (acc ++ [(f q t).1], (f q t).2) := rfl
    rw [hstep]
    have hacc' : List.Forall₂ Game.Equiv (acc ++ [(f q t).1]) (G ++ [snortGame q]) :=
      forall2_append hacc (List.Forall₂.cons hq.1 List.Forall₂.nil)
    obtain ⟨h1, h2⟩ := ih (fun q' hq' => hf q' (List.mem_cons_of_mem q hq'))
      (acc ++ [(f q t).1]) (G ++ [snortGame q]) (f q t).2 hacc' hq.2
    have hassoc : (G ++ [snortGame q]) ++ ps'.map snortGame =
        G ++ (q :: ps').map snortGame := by
      simp
    rw [hassoc] at h1
    exact ⟨h1, h2⟩

theorem mapThread_spec (f : Position → TT → Game × TT) (ps : List Position)
    (hf : ∀ q ∈ ps, ∀ t, ValidT t →
      Game.Equiv (f q t).1 (snortGame q) ∧ ValidT (f q t).2)
    (t : TT) (ht : ValidT t) :
    List.Forall₂ Game.Equiv (mapThread f ps t).1 (ps.map snortGame) ∧
    ValidT (mapThread f ps t).2 := by
  have h := mapThread_correct f ps hf [] [] t List.Forall₂.nil ht
  unfold mapThread
  exact ⟨by simpa using h.1, h.2⟩

/-- The component fold of the driver preserves the table invariant and
computes a value equivalent to the running sum of the components'
reference values. -/
theorem compFold_correct (f : Position → TT → Game × TT) :
    ∀ (cs : List Position),
      (∀ c ∈ cs,
        snortGame c =
          Game.mk (c.left_moves.map snortGame) (c.right_moves.map snortGame) ∧
        (∀ q ∈ c.left_moves, ∀ t, ValidT t →
          Game.Equiv (f q t).1 (snortGame q) ∧ ValidT (f q t).2) ∧
        (∀ q ∈ c.right_moves, ∀ t, ValidT t →
          Game.Equiv (f q t).1 (snortGame q) ∧ ValidT (f q t).2)) →
      ∀ (s : Game × TT) (G : Game),
        ValidT s.2 → Game.Equiv s.1 G →
        Game.Equiv (cs.foldl (compStep f) s).1
            (cs.foldl (fun acc c => Game.add (snortGame c) acc) G) ∧
        ValidT (cs.foldl (compStep f) s).2 := by
  intro cs
  induction cs with
  | nil => intro _ s G hT hE; exact ⟨hE, hT⟩
  | cons c cs' ih =>
    intro hcs s G hT hE
    rw [List.foldl_cons, List.foldl_cons]
    obtain ⟨hceq, hfl, hfr⟩ := hcs c (List.mem_cons_self c cs')
    have hstep : Game.Equiv (compStep f s c).1 (Game.add (snortGame c) G) ∧
        ValidT (compStep f s c).2 := by
      unfold compStep
      cases hget : rwGet s.2 c with
      | some cf =>
        exact ⟨Game.add_congr (hT c cf hget) hE, hT⟩
      | none =>
        have hl := mapThread_spec f c.left_moves hfl s.2 hT
        have hr := mapThread_spec f c.right_moves hfr
          (mapThread f c.left_moves s.2).2 hl.2
        have hcf : Game.Equiv
            (Game.mk (mapThread f c.left_moves s.2).1
              (mapThread f c.right_moves (mapThread f c.left_moves s.2).2).1)
            (snortGame c) := by
          rw [hceq]
          exact Game.mk_congr hl.1 hr.1
        constructor
        · exact Game.add_congr hcf hE
        · intro k g hk
          rw [rwGet_rwInsert] at hk
          by_cases hkc : c = k
          · rw [if_pos hkc] at hk
            have hg := Option.some.inj hk
            subst hkc
            rw [← hg]
            exact hcf
          · rw [if_neg hkc] at hk
            exact hr.2 k g hk
    exact ih (fun c' hc' => hcs c' (List.mem_cons_of_mem c hc'))
      (compStep f s c) (Game.add (snortGame c) G) hstep.2 hstep.1

/-- Main driver invariant: on a valid table, with fuel above the measure,
the fueled canonical form computes a value equivalent to the reference
value and returns a valid table. -/
theorem cff_correct :
    ∀ (N fuel : Nat) (p : Position) (t : TT), mv p < N → mv p + 1 ≤ fuel → ValidT t →
      Game.Equiv (canonicalFormFuel fuel p t).1 (snortGame p) ∧
      ValidT (canonicalFormFuel fuel p t).2 := by
  intro N
  induction N with
  | zero => intro fuel p t h _ _; omega
  | succ N ih =>
    intro fuel p t hN hf hT
    obtain ⟨f', rfl⟩ : ∃ g, fuel = g + 1 := ⟨fuel - 1, by omega⟩
    unfold canonicalFormFuel
    cases hget : rwGet t p with
    | some g =>
      exact ⟨hT p g hget, hT⟩
    | none =>
      have hcomp : ∀ c ∈ p.decompositions,
          snortGame c =
            Game.mk (c.left_moves.map snortGame) (c.right_moves.map snortGame) ∧
          (∀ q ∈ c.left_moves, ∀ t', ValidT t' →
            Game.Equiv (canonicalFormFuel f' q t').1 (snortGame q) ∧
            ValidT (canonicalFormFuel f' q t').2) ∧
          (∀ q ∈ c.right_moves, ∀ t', ValidT t' →
            Game.Equiv (canonicalFormFuel f' q t').1 (snortGame q) ∧
            ValidT (canonicalFormFuel f' q t').2) := by
        intro c hc
        refine ⟨snortComponent_mk p c hc, ?_, ?_⟩
        · intro q hq t' hT'
          have hmv : mv q < mv p :=
            mv_comp_move_lt p c q hc VertexColor.TintLeft (by decide) hq
          exact ih f' q t' (by omega) (by omega) hT'
        · intro q hq t' hT'
          have hmv : mv q < mv p :=
            mv_comp_move_lt p c q hc VertexColor.TintRight (by decide) hq
          exact ih f' q t' (by omega) (by omega) hT'
      have hfold := compFold_correct (canonicalFormFuel f') p.decompositions hcomp
        (Game.zero, t) Game.zero hT (Game.equiv_refl Game.zero)
      rw [← snortGame_sum p] at hfold
      refine ⟨hfold.1, ?_⟩
      intro k g hk
      rw [rwGet_rwInsert] at hk
      by_cases hkp : p = k
      · rw [if_pos hkp] at hk
        have hg := Option.some.inj hk
        subst hkp
        rw [← hg]
        exact hfold.1
      · rw [if_neg hkp] at hk
        exact hfold.2 k g hk

/-- `canonical_form` on a valid table: the result is equivalent to the
reference value, and the returned table is again valid. -/
theorem canonical_form_correct (p : Position) (t : TT) (hT : ValidT t) :
    Game.Equiv (canonical_form p t).1 (snortGame p) ∧
    ValidT (canonical_form p t).2 := by
  unfold canonical_form
  exact cff_correct (mv p + 1) (mv p + 1) p t (by omega) (by omega) hT

/-- Congruence of the running disjunctive sum under componentwise
equivalence. -/
theorem foldl_add_congr (F G : Position → Game) :
    ∀ (cs : List Position) (a b : Game),
      Game.Equiv a b → (∀ c ∈ cs, Game.Equiv (F c) (G c)) →
      Game.Equiv (cs.foldl (fun acc c => Game.add (F c) acc) a)
        (cs.foldl (fun acc c => Game.add (G c) acc) b) := by
  intro cs
  induction cs with
  | nil => intro a b hab _; exact hab
  | cons c cs' ih =>
    intro a b hab hmem
    rw [List.foldl_cons, List.foldl_cons]
    exact ih (Game.add (F c) a) (Game.add (G c) b)
      (Game.add_congr (hmem c (List.mem_cons_self c cs')) hab)
      (fun c' hc' => hmem c' (List.mem_cons_of_mem c hc'))

/-- A position of three vertices with one edge: it decomposes into two
components (an edge and an isolated vertex). -/
def pairAndSingle : Position := Position.new (Graph.from_edges 3 [(0, 1)])

/-- A transposition table caching the (correct) canonical form of the
empty position. -/
def cachedZero : TT := rwInsert rwNew (Position.new (Graph.empty 0)) Game.zero

/-- C2: for every Snort position `P` that decomposes into components
`[C1, ..., Cn]`, the canonical form of `P` (computed with any table
satisfying the table invariant) is, as a game value, the disjunctive sum
of the canonical forms of the `Ci`; the empty sum is the integer `0`. -/
theorem c2_decomposition_sum (p : Position) (t : TT) (hT : ValidT t) :
    Game.Equiv (canonical_form p t).1
      (p.decompositions.foldl
        (fun acc c => Game.add (canonical_form c rwNew).1 acc) Game.zero) := by
  have h1 : Game.Equiv (canonical_form p t).1
      (p.decompositions.foldl (fun acc c => Game.add (snortGame c) acc) Game.zero) := by
    rw [← snortGame_sum p]
    exact (canonical_form_correct p t hT).1
  have h2 := foldl_add_congr snortGame (fun c => (canonical_form c rwNew).1)
    p.decompositions Game.zero Game.zero (Game.equiv_refl Game.zero)
    (fun c _ => Game.equiv_symm (canonical_form_correct c rwNew validT_rwNew).1)
  exact Game.equiv_trans h1 h2

theorem c2_decomposition_sum_witness :
    ValidT (rwNew : TT) ∧
    Game.Equiv (canonical_form pairAndSingle rwNew).1
      (pairAndSingle.decompositions.foldl
        (fun acc c => Game.add (canonical_form c rwNew).1 acc) Game.zero) :=
  ⟨validT_rwNew, c2_decomposition_sum pairAndSingle rwNew validT_rwNew⟩

/-- C3: for every Snort position `P` and any two transposition tables
satisfying the table invariant (every cached entry is the game value of
its key; the empty table that caches nothing satisfies it trivially),
`canonical_form` returns the same canonical form — equal game values. -/
theorem c3_memoization (p : Position) (t1 t2 : TT)
    (h1 : ValidT t1) (h2 : ValidT t2) :
    Game.Equiv (canonical_form p t1).1 (canonical_form p t2).1 :=
  Game.equiv_trans (canonical_form_correct p t1 h1).1
    (Game.equiv_symm (canonical_form_correct p t2 h2).1)

theorem c3_memoization_witness :
    ValidT (rwNew : TT) ∧ ValidT cachedZero ∧
    Game.Equiv (canonical_form pairAndSingle rwNew).1
      (canonical_form pairAndSingle cachedZero).1 := by
  have hvc : ValidT cachedZero := by
    intro k g hk
    have he : rwGet cachedZero k =
        if Position.new (Graph.empty 0) = k then some Game.zero else none := rfl
    rw [he] at hk
    by_cases hp : Position.new (Graph.empty 0) = k
    · rw [if_pos hp] at hk
      have hg := Option.some.inj hk
      subst hp
      rw [← hg]
      decide
    · rw [if_neg hp] at hk
      exact Option.noConfusion hk
  exact ⟨validT_rwNew, hvc,
    c3_memoization pairAndSingle rwNew cachedZero validT_rwNew hvc⟩
